import Mathlib

/-!
Verification of the metadata reconciliation tool (`code.py`).

We shallowly embed the program: Python strings are Lean `String`s, Python
dicts are association lists with dict semantics (`dictSet`, `dictLookup`),
pandas rows are association lists of present (non-NaN) cells, files are
lists of lines.  Fallible control flow (exceptions) is `Except`.
-/

namespace Code

/-- Python `str.lower()` (ASCII case folding, as used on filenames/keys). -/
def pyLower (s : String) : String := ⟨s.data.map Char.toLower⟩

/-- Whitespace recognized by Python `str.strip()` (ASCII subset). -/
def pyWS (c : Char) : Bool := c = ' ' || c = '\t' || c = '\n' || c = '\r'

/-- The character-list form of `str.strip()`: drop whitespace from both ends. -/
def stripChars (l : List Char) : List Char :=
  ((l.dropWhile pyWS).reverse.dropWhile pyWS).reverse

/-- Python `str.strip()`. -/
def pyStrip (s : String) : String := ⟨stripChars s.data⟩

/-- Python `"\n".join(l)`. -/
def joinNL : List String → String
  | [] => ""
  | [s] => s
  | s :: rest => s ++ "\n" ++ joinNL rest

/-- Python string comparison: code-point lexicographic order. -/
def ltChars : List Char → List Char → Bool
  | [], [] => false
  | [], _ :: _ => true
  | _ :: _, [] => false
  | a :: as, b :: bs =>
    if a.toNat < b.toNat then true
    else if b.toNat < a.toNat then false
    else ltChars as bs

/-- Python `s < t` on strings. -/
def pyLt (s t : String) : Bool := ltChars s.data t.data

/-- Dict lookup (`d.get(k)`): first (and in dict-shaped lists, only) binding. -/
def dictLookup {α : Type} (r : List (String × α)) (k : String) : Option α :=
  (r.find? (fun p => p.1 = k)).map Prod.snd

/-- Dict lookup with default (`d.get(k, dflt)`). -/
def dictLookupD {α : Type} (r : List (String × α)) (k : String) (dflt : α) : α :=
  (dictLookup r k).getD dflt

/-- Dict assignment `d[k] = v`: overwrite in place if the key is present,
else append at the end (Python dicts preserve insertion order). -/
def dictSet {α : Type} (r : List (String × α)) (k : String) (v : α) : List (String × α) :=
  if r.any (fun p => p.1 = k) then
    r.map (fun p => if p.1 = k then (k, v) else p)
  else r ++ [(k, v)]

/-- Keys of an association list. -/
def keys {α : Type} (r : List (String × α)) : List String := r.map Prod.fst

/-- Helper for `firstDedup`: keep elements not seen before. -/
def firstDedupAux (seen : List String) : List String → List String
  | [] => []
  | a :: l =>
    if a ∈ seen then firstDedupAux seen l else a :: firstDedupAux (a :: seen) l

/-- First-occurrence deduplication, as Python dict/`defaultdict` insertion
order produces for repeatedly seen keys. -/
def firstDedup (l : List String) : List String := firstDedupAux [] l

/-- Insert a string into a sorted duplicate-free list, keeping it sorted and
duplicate-free.  Folding this over a list embeds Python `sorted(set(l))`. -/
def insD (x : String) : List String → List String
  | [] => [x]
  | y :: ys =>
    if x = y then y :: ys
    else if pyLt x y then x :: y :: ys
    else y :: insD x ys

/-- Python `sorted(set(l))` for strings (code-point lexicographic order). -/
def sortedDedup (l : List String) : List String := l.foldr insD []

/-! ## Ledger Normalizer (`merge_excel_rows`, code.py lines 38-55)

A raw ledger row is the association list of its present (non-NaN) cells,
already stringified.  `merge_excel_rows` groups rows by the trimmed,
lower-cased `"Filename"` value, collects the trimmed present values of each
column across the group, and joins `sorted(set(values))` with `"\n"`. -/

/-- The grouping key of a raw row: `str(row.get("Filename", "")).strip().lower()`. -/
def rowKey (r : List (String × String)) : String :=
  pyLower (pyStrip (dictLookupD r "Filename" ""))

/-- The rows of the group keyed `f` (in input order). -/
def groupRows (rows : List (List (String × String))) (f : String) :
    List (List (String × String)) :=
  rows.filter (fun r => rowKey r = f)

/-- Column insertion order of `grouped[f]`: first occurrence across the
group's rows, iterating each row's items in order. -/
def colsOfGroup (rows : List (List (String × String))) (f : String) : List String :=
  firstDedup ((groupRows rows f).flatMap keys)

/-- All (trimmed) values appended to `grouped[f][c]`, in append order. -/
def collectedVals (rows : List (List (String × String))) (f c : String) : List String :=
  (groupRows rows f).flatMap (fun r =>
    (r.filter (fun p => p.1 = c)).map (fun p => pyStrip p.2))

/-- `"\n".join(sorted(set(grouped[f][c])))`. -/
def mergedValue (rows : List (List (String × String))) (f c : String) : String :=
  joinNL (sortedDedup (collectedVals rows f c))

/-- The merged row for group `f`: `{"Filename": f}` then one dict assignment
per collected column (an assignment to `"Filename"` overwrites the seed). -/
def mergeRow (rows : List (List (String × String))) (f : String) :
    List (String × String) :=
  (colsOfGroup rows f).foldl (fun r c => dictSet r c (mergedValue rows f c))
    [("Filename", f)]

/-- `merge_excel_rows`: one merged row per distinct group key, in order of
first appearance. -/
def mergeExcelRows (rows : List (List (String × String))) :
    List (List (String × String)) :=
  (firstDedup (rows.map rowKey)).map (mergeRow rows)

/-! ## Shared string helpers for the extractors -/

/-- Python `"sep".join(l)` for an arbitrary separator. -/
def joinWith (sep : String) : List String → String
  | [] => ""
  | [s] => s
  | s :: rest => s ++ sep ++ joinWith sep rest

/-- Python `"".join(l)`. -/
def joinAll (l : List String) : String := l.foldl (fun a s => a ++ s) ""

/-- Is `pat` a prefix of `s`? -/
def prefixOfChars : List Char → List Char → Bool
  | [], _ => true
  | _ :: _, [] => false
  | a :: as, b :: bs => a = b && prefixOfChars as bs

/-- Python substring containment `pat in s` (character lists). -/
def subChars (pat : List Char) : List Char → Bool
  | [] => pat.isEmpty
  | c :: t => prefixOfChars pat (c :: t) || subChars pat t

/-- `s.split(sep, 1)` for a one-character pattern position: the part of `s`
before the first `:` and the part after it. -/
def splitColon1 (s : String) : String × String :=
  (⟨s.data.takeWhile (fun c => c ≠ ':')⟩, ⟨(s.data.dropWhile (fun c => c ≠ ':')).tail⟩)

/-! ## Comment-Header Extractor (`extract_comment_header`, code.py lines 59-73) -/

/-- `line.strip().startswith("#")`. -/
def startsHash (s : String) : Bool :=
  match s.data with
  | '#' :: _ => true
  | _ => false

/-- Python `line.lstrip("#")`: drop leading `#` characters. -/
def lstripHash (s : String) : String := ⟨s.data.dropWhile (fun c => c = '#')⟩

/-- The loop of `extract_comment_header`, over the file's lines with the
accumulated dict and the currently active key.  `elif current_key:` is a
Python truthiness test, false both for `None` and for the empty string, so
a key that stripped to `""` receives no continuation lines.
`data[current_key] += ...` reads the present value of `current_key` (always
set once a key is active, so the `""` default of `dictLookupD` is never
used). -/
def extractCommentGo : List String → List (String × String) → Option String →
    List (String × String)
  | [], data, _ => data
  | l :: ls, data, current =>
    if ¬ startsHash (pyStrip l) then data
    else
      let content := pyStrip (lstripHash l)
      if content.data.contains ':' then
        let key := pyStrip (splitColon1 content).1
        let value := pyStrip (splitColon1 content).2
        extractCommentGo ls (dictSet data key value) (some key)
      else
        match current with
        | some ck =>
          if ck = "" then extractCommentGo ls data current
          else
            extractCommentGo ls
              (dictSet data ck (dictLookupD data ck "" ++ "\n" ++ pyStrip content)) current
        | none => extractCommentGo ls data current

/-- `extract_comment_header`, on the file's lines (newlines stripped away by
the `strip` calls in the source, so lines are modelled without them). -/
def extract_comment_header (lines : List String) : List (String × String) :=
  extractCommentGo lines [] none

/-! ## Literal-Header Extractor (`extract_java_header`, code.py lines 77-96) -/

/-- The marker phrase of the literal header. -/
def javaMarker : String := "public static String Header"

/-- The scan loop of `extract_java_header`: a marker line sets
`header_started` and is itself skipped (`continue`); afterwards lines are
collected (stripped) until a line containing `";` is met. -/
def javaCollect : List String → Bool → List String
  | [], _ => []
  | l :: ls, started =>
    if subChars javaMarker.data l.data then javaCollect ls true
    else if started then
      if subChars ['"', ';'] l.data then []
      else pyStrip l :: javaCollect ls started
    else javaCollect ls false

/-- Python `s.replace('"+', "")`: delete occurrences of `"` followed by `+`,
scanning left to right. -/
def dropQuotePlus : List Char → List Char
  | [] => []
  | [c] => [c]
  | c1 :: c2 :: rest =>
    if c1 = '"' ∧ c2 = '+' then dropQuotePlus rest
    else c1 :: dropQuotePlus (c2 :: rest)

/-- Python `s.replace('"', "")`. -/
def dropQuotes (l : List Char) : List Char := l.filter (fun c => c ≠ '"')

/-- Prepend a character to the first group of a split result. -/
def consFstGroup (c : Char) : List (List Char) → List (List Char)
  | [] => [[c]]
  | g :: gs => (c :: g) :: gs

/-- Python `s.split("\\n")`: split on the two-character escape sequence
backslash-n (the in-literal representation of a newline). -/
def splitEscN : List Char → List (List Char)
  | [] => [[]]
  | [c] => [[c]]
  | c1 :: c2 :: rest =>
    if c1 = '\\' ∧ c2 = 'n' then [] :: splitEscN rest
    else consFstGroup c1 (splitEscN (c2 :: rest))

/-- `JAVA_KEY_MAP` (code.py lines 23-28); `WORD_KEY_MAP` is the same table. -/
def JAVA_KEY_MAP : List (String × String) :=
  [("id", "ID"), ("description", "Objective"), ("title", "Filename"), ("author", "Author")]

/-- One logical line of the cleaned header: on a colon, split once and store
under `JAVA_KEY_MAP.get(key.strip().lower(), key.strip())`. -/
def javaParseLine (data : List (String × String)) (line : String) :
    List (String × String) :=
  if line.data.contains ':' then
    let key := (splitColon1 line).1
    let value := (splitColon1 line).2
    dictSet data (dictLookupD JAVA_KEY_MAP (pyLower (pyStrip key)) (pyStrip key))
      (pyStrip value)
  else data

/-- `extract_java_header` on the file's lines. -/
def extract_java_header (lines : List String) : List (String × String) :=
  let fullHeader := joinAll (javaCollect lines false)
  let cleaned := dropQuotes (dropQuotePlus fullHeader.data)
  (splitEscN cleaned).foldl (fun data lc => javaParseLine data ⟨lc⟩) []

/-! ## Document-Table Extractor (`extract_word_cases` / `extract_word_header`,
code.py lines 100-171)

A document is its list of tables; a table is a list of rows; a row is the
list of its cells' text.  Python `set`s (expected/found IDs) are modelled as
sorted duplicate-free lists; the source only joins them into diagnostic
strings, whose internal order is unspecified set-iteration order, so we fix
the canonical sorted order. -/

/-- One metadata-table row: rows with fewer than two cells are skipped; a
non-empty key overwrites (last wins). -/
def metaRow (metadata : List (String × String)) (row : List String) :
    List (String × String) :=
  match row with
  | c0 :: c1 :: _ =>
    if pyStrip c0 ≠ "" then dictSet metadata (pyStrip c0) (pyStrip c1) else metadata
  | _ => metadata

/-- Dict update `d[k] += "\n" + v` when present, `d[k] = v` when absent. -/
def dictAppendNL (r : List (String × String)) (k v : String) :
    List (String × String) :=
  if r.any (fun p => p.1 = k) then
    r.map (fun p => if p.1 = k then (k, p.2 ++ "\n" ++ v) else p)
  else r ++ [(k, v)]

/-- One case-table row: duplicate keys accumulate with a newline. -/
def caseRow (caseData : List (String × String)) (row : List String) :
    List (String × String) :=
  match row with
  | c0 :: c1 :: _ =>
    if pyStrip c0 ≠ "" then dictAppendNL caseData (pyStrip c0) (pyStrip c1) else caseData
  | _ => caseData

/-- Python `v.replace(";", ",").split(",")`. -/
def splitCommaSemi : List Char → List (List Char)
  | [] => [[]]
  | c :: rest =>
    if c = ',' ∨ c = ';' then [] :: splitCommaSemi rest
    else consFstGroup c (splitCommaSemi rest)

/-- The expected-ID set: values of metadata keys containing "another id"
(case-insensitively), split on `,`/`;`, stripped, non-empty. -/
def expectedIds (metadata : List (String × String)) : List String :=
  sortedDedup (metadata.flatMap (fun p =>
    if subChars "another id".data (pyLower p.1).data then
      ((splitCommaSemi p.2.data).map (fun cs => pyStrip ⟨cs⟩)).filter (fun s => s ≠ "")
    else []))

/-- `case_data.get("Case ID") or case_data.get("case id")`: Python `or`
falls through on `None` and on the empty string. -/
def caseIdOf (caseData : List (String × String)) : Option String :=
  match dictLookup caseData "Case ID" with
  | some v => if v = "" then dictLookup caseData "case id" else some v
  | none => dictLookup caseData "case id"

/-- The found-ID set: truthy case IDs, stripped. -/
def foundIds (cases : List (List (String × String))) : List String :=
  sortedDedup (cases.filterMap (fun cd =>
    match caseIdOf cd with
    | some v => if v ≠ "" then some (pyStrip v) else none
    | none => none))

/-- Set difference on the canonical sorted lists. -/
def setDiff (a b : List String) : List String := a.filter (fun x => ¬ x ∈ b)

/-- `extract_word_cases`: metadata mapping, case list, diagnostics. -/
def extract_word_cases (tables : List (List (List String))) :
    List (String × String) × List (List (String × String)) × List String :=
  match tables with
  | [] => ([], [], ["Template or test cases not found"])
  | [_] => ([], [], ["Template or test cases not found"])
  | t0 :: rest =>
    let metadata := t0.foldl metaRow []
    let expected := expectedIds metadata
    let cases := rest.map (fun t => t.foldl caseRow [])
    let found := foundIds cases
    let m1 :=
      if setDiff expected found ≠ [] then
        ["IDs in template but not in cases: " ++ joinWith ", " (setDiff expected found)]
      else []
    let m2 :=
      if setDiff found expected ≠ [] then
        ["Case IDs not listed in template: " ++ joinWith ", " (setDiff found expected)]
      else []
    (metadata, cases, m1 ++ m2)

/-- `combined_fields` (code.py lines 153-159): all case fields accumulated
in order, duplicate keys joined with a newline. -/
def combineCases (cases : List (List (String × String))) : List (String × String) :=
  cases.foldl (fun acc cd => cd.foldl (fun a p => dictAppendNL a p.1 p.2) acc) []

/-- The flattening of `extract_word_header` (code.py lines 153-171): copy of
the metadata dict, then each combined case field is newline-appended when
its key already exists and inserted otherwise; diagnostics joined under
"Word Template Issues". -/
def wordFlatten (metadata : List (String × String))
    (cases : List (List (String × String))) (mismatches : List String) :
    List (String × String) :=
  let result := (combineCases cases).foldl (fun r p => dictAppendNL r p.1 p.2) metadata
  if mismatches ≠ [] then
    dictSet result "Word Template Issues" (joinWith "; " mismatches)
  else result

/-- `extract_word_header`. -/
def extract_word_header (tables : List (List (List String))) :
    List (String × String) :=
  let mcm := extract_word_cases tables
  wordFlatten mcm.1 mcm.2.1 mcm.2.2

/-! ## Similarity Scorer (`similar`, code.py lines 34-35)

`similar` calls `difflib.SequenceMatcher(None, a.lower(), b.lower()).ratio()`.
We embed difflib's algorithm: `b2j` maps each character of `b` to its
(ascending) index list, with the autojunk rule dropping "popular" characters
(more than `n // 100 + 1` occurrences) when `len(b) >= 200`; for each
region, `find_longest_match` runs the `j2len` dynamic-programming row loop
and then extends the best block over equal characters on both sides (the
junk-set extension loops are no-ops because `isjunk` is `None`, so the junk
set is empty and only the two non-junk extension loops can act);
`get_matching_blocks` recursively splits the region around each longest
match, and `ratio` is `2 * matches / total_length`, or `1.0` for two empty
sequences (`_calculate_ratio`).  `j2len` dicts are embedded as total
functions defaulting to 0; `j2len.get(j - 1, 0)` at `j = 0` reads Python key
`-1`, never present, hence the explicit `0` for `j = 0`.  `i - k + 1` is
written `i + 1 - k` to avoid natural truncation (the values coincide over
the integers).  Python floats are embedded as rationals. -/

/-- Index list of character `c` in `b`, with difflib's autojunk filter. -/
def b2jFun (b : List Char) (c : Char) : List Nat :=
  let idxs := (List.range b.length).filter (fun j => b.getD j 'a' = c)
  if 200 ≤ b.length ∧ b.length / 100 + 1 < idxs.length then [] else idxs

/-- Pointwise update of a `j2len` row. -/
def dUpd (d : Nat → Nat) (j k : Nat) : Nat → Nat :=
  fun x => if x = j then k else d x

/-- The inner loop of `find_longest_match` over `b2j[a[i]]`: skip `j < blo`,
break at `j >= bhi`, otherwise `k = j2len.get(j-1, 0) + 1` goes into the new
row and the best block is updated when `k > bestsize`. -/
def rowStep (dPrev : Nat → Nat) (blo bhi i : Nat) :
    List Nat → (Nat → Nat) → Nat × Nat × Nat → (Nat → Nat) × (Nat × Nat × Nat)
  | [], dNew, best => (dNew, best)
  | j :: js, dNew, best =>
    if j < blo then rowStep dPrev blo bhi i js dNew best
    else if bhi ≤ j then (dNew, best)
    else
      let k := (if j = 0 then 0 else dPrev (j - 1)) + 1
      let best' := if best.2.2 < k then (i + 1 - k, j + 1 - k, k) else best
      rowStep dPrev blo bhi i js (dUpd dNew j k) best'

/-- The outer loop of `find_longest_match` over `range(alo, ahi)`. -/
def rowsLoop (a : List Char) (b2j : Char → List Nat) (blo bhi : Nat) :
    List Nat → (Nat → Nat) → Nat × Nat × Nat → (Nat → Nat) × (Nat × Nat × Nat)
  | [], d, best => (d, best)
  | i :: is, d, best =>
    let s := rowStep d blo bhi i (b2j (a.getD i 'a')) (fun _ => 0) best
    rowsLoop a b2j blo bhi is s.1 s.2

/-- The first (non-junk) extension loop: grow the block downwards over equal
characters. -/
def extLow (a b : List Char) (alo blo : Nat) (besti bestj bestsize : Nat) :
    Nat × Nat × Nat :=
  if h : alo < besti ∧ blo < bestj ∧ a.getD (besti - 1) 'a' = b.getD (bestj - 1) 'a' then
    extLow a b alo blo (besti - 1) (bestj - 1) (bestsize + 1)
  else (besti, bestj, bestsize)
termination_by besti
decreasing_by exact Nat.sub_lt (Nat.lt_of_le_of_lt (Nat.zero_le _) h.1) Nat.one_pos

/-- The second (non-junk) extension loop: grow the block upwards over equal
characters. -/
def extHigh (a b : List Char) (ahi bhi : Nat) (besti bestj : Nat) (bestsize : Nat) :
    Nat :=
  if h : besti + bestsize < ahi ∧ bestj + bestsize < bhi ∧
      a.getD (besti + bestsize) 'a' = b.getD (bestj + bestsize) 'a' then
    extHigh a b ahi bhi besti bestj (bestsize + 1)
  else bestsize
termination_by ahi - (besti + bestsize)
decreasing_by omega

/-- `find_longest_match` on the region `[alo, ahi) × [blo, bhi)`. -/
def findLongestMatch (a b : List Char) (b2j : Char → List Nat)
    (alo ahi blo bhi : Nat) : Nat × Nat × Nat :=
  let s := rowsLoop a b2j blo bhi (List.range' alo (ahi - alo)) (fun _ => 0)
    (alo, blo, 0)
  let e := extLow a b alo blo s.2.1 s.2.2.1 s.2.2.2
  (e.1, e.2.1, extHigh a b ahi bhi e.1 e.2.1 e.2.2)

/-- Total size of the matching blocks of `get_matching_blocks`, by the
recursive region splitting (the final merge of adjacent blocks preserves the
total).  The fuel strictly exceeds the region width, which strictly
decreases on both sides of a non-empty match, so it never runs out. -/
def blocksTotal (a b : List Char) (b2j : Char → List Nat) :
    Nat → Nat → Nat → Nat → Nat → Nat
  | 0, _, _, _, _ => 0
  | fuel + 1, alo, ahi, blo, bhi =>
    let m := findLongestMatch a b b2j alo ahi blo bhi
    if m.2.2 = 0 then 0
    else
      blocksTotal a b b2j fuel alo m.1 blo m.2.1 + m.2.2 +
        blocksTotal a b b2j fuel (m.1 + m.2.2) ahi (m.2.1 + m.2.2) bhi

/-- `sum(triple[-1] for triple in get_matching_blocks())`. -/
def smMatches (a b : List Char) : Nat :=
  blocksTotal a b (b2jFun b) (a.length + 1) 0 a.length 0 b.length

/-- `SequenceMatcher.ratio()` via `_calculate_ratio`: `2 * matches / length`
when the total length is non-zero, else `1.0`. -/
def pyRatio (a b : List Char) : ℚ :=
  if a.length + b.length = 0 then 1
  else 2 * (smMatches a b : ℚ) / ((a.length : ℚ) + (b.length : ℚ))

/-- Python banker's rounding to the nearest integer (round-half-even). -/
def roundHalfEven (x : ℚ) : ℤ :=
  if Int.fract x < 1 / 2 then ⌊x⌋
  else if 1 / 2 < Int.fract x then ⌊x⌋ + 1
  else if Even ⌊x⌋ then ⌊x⌋ else ⌊x⌋ + 1

/-- Python `round(x, 2)`. -/
def pyRound2 (x : ℚ) : ℚ := (roundHalfEven (x * 100) : ℚ) / 100

/-- `similar(a, b)` (code.py lines 34-35). -/
def similar (a b : String) : ℚ :=
  pyRound2 (pyRatio (pyLower a).data (pyLower b).data * 100)

/-! ## Main comparison pipeline (`main`, code.py lines 175-262)

The loop body over one extracted record (lines 206-251) is `processRecord`.
`excel_row` is a pandas `Series` when the lookup hits (`excel_map` values
come from `df.iterrows()`); Python's `if excel_row:` then calls
`Series.__bool__`, which unconditionally raises
`ValueError: The truth value of a Series is ambiguous.` — so the matched
branch is modelled as that exception.  (`None` is falsy, so the unmatched
branch takes the `else` normally.)  Report-row cells hold strings or the
numeric similarity score. -/

/-- A report cell: a string or the numeric `Title Match %` score. -/
inductive Cell where
  | str (s : String)
  | num (q : ℚ)
deriving DecidableEq

/-- `COLUMN_MAPPING` (code.py lines 17-21). -/
def COLUMN_MAPPING : List (String × String) :=
  [("Excel_ID", "ID"), ("Excel_Objective", "Objective"), ("Excel_Author", "Author")]

/-- Lines 192-194: the extractor output with `data["Filename"] = fname` and
`data["FileType"] = filetype` forced afterwards. -/
def buildRecord (data : List (String × String)) (fname ftype : String) :
    List (String × String) :=
  dictSet (dictSet data "Filename" fname) "FileType" ftype

/-- The message of `pandas.core.generic.NDFrame.__bool__`. -/
def seriesBoolMsg : String := "ValueError: The truth value of a Series is ambiguous."

/-- The per-field comparison of lines 222-230 (reached by no execution,
since line 221 raises first on a match): builds the file-side and
ledger-side remark lists over `COLUMN_MAPPING`. -/
def fieldCompare (excelRow fileData : List (String × String)) :
    List String × List String :=
  COLUMN_MAPPING.foldl (fun rem p =>
    let expected := pyStrip (dictLookupD excelRow p.1 "")
    let actual := pyStrip (dictLookupD fileData p.2 "")
    if expected ≠ "" ∧ actual = "" then (rem.1 ++ [p.2 ++ ": missing"], rem.2)
    else if actual ≠ "" ∧ expected = "" then (rem.1, rem.2 ++ [p.2 ++ ": missing"])
    else if expected ≠ actual then (rem.1 ++ [p.2 ++ ": mismatch"], rem.2)
    else rem) ([], [])

/-- The loop body of lines 206-251 for one extracted record, given the
`excel_map` lookup. -/
def processRecord (em : String → Option (List (String × String)))
    (fd : List (String × String)) : Except String (List (String × Cell)) :=
  let filename := pyStrip (dictLookupD fd "Filename" "")
  let excelRow := em (pyLower filename)
  let entry : List (String × Cell) :=
    [("Filename", Cell.str filename),
     ("FileType", Cell.str (dictLookupD fd "FileType" "")),
     ("Title Match %", Cell.num (match excelRow with
       | some row => similar filename (dictLookupD row "Filename" "")
       | none => 0))]
  match excelRow with
  | some _ => Except.error seriesBoolMsg
  | none =>
    let entry := dictSet entry "Error" (Cell.str "filename missing in excel")
    let entry := dictSet entry "Excel Remarks" (Cell.str "")
    let entry := dictSet entry "File Remarks" (Cell.str "")
    let entry := fd.foldl (fun e p =>
      if e.any (fun q => q.1 = p.1) then e else dictSet e p.1 (Cell.str p.2)) entry
    Except.ok entry

/-- Line 178: `df["Filename"] = df["Filename"].str.strip()`. -/
def stripFilenameCol (df : List (List (String × String))) :
    List (List (String × String)) :=
  df.map (fun r => dictSet r "Filename" (pyStrip (dictLookupD r "Filename" "")))

/-- `excel_map` (lines 199-202): keyed by `str(row["Filename"]).strip().lower()`;
dict comprehension semantics make the last row win on key collision. -/
def excelMapGet (df : List (List (String × String))) (key : String) :
    Option (List (String × String)) :=
  df.reverse.find? (fun r => pyLower (pyStrip (dictLookupD r "Filename" "")) = key)

/-- The normalized filename of an extracted record, as `processed_files`
collects it (line 207-209). -/
def fileKey (fd : List (String × String)) : String :=
  pyLower (pyStrip (dictLookupD fd "Filename" ""))

/-- The residual rows of lines 253-260: one `{"Filename": ..., "Error":
"file not found"}` per merged ledger row whose normalized filename was never
seen on disk, in ledger order. -/
def residualRows (df : List (List (String × String)))
    (files : List (List (String × String))) : List (List (String × Cell)) :=
  (df.filter (fun r =>
      ¬ (files.map fileKey).contains (pyLower (pyStrip (dictLookupD r "Filename" ""))))).map
    (fun r => [("Filename", Cell.str (dictLookupD r "Filename" "")),
               ("Error", Cell.str "file not found")])

/-- The full result-row computation of `main` (lines 176-262): merge and
strip the ledger, process every extracted record, then append the residual
rows.  A raised exception aborts the whole run before anything is written. -/
def mainResults (dfRaw : List (List (String × String)))
    (files : List (List (String × String))) :
    Except String (List (List (String × Cell))) :=
  let df := stripFilenameCol (mergeExcelRows dfRaw)
  match files.mapM (processRecord (excelMapGet df)) with
  | Except.error e => Except.error e
  | Except.ok rows => Except.ok (rows ++ residualRows df files)

/-! ## Proof-support definitions -/

/-- Length of the junk-free character run of `s` ending at position `j`
(with respect to `b2jFun s`): the number of consecutive positions up to and
including `j` whose character was not dropped by the autojunk filter. -/
def jfRun (s : List Char) : Nat → Nat
  | 0 => if (b2jFun s (s.getD 0 'a')).isEmpty then 0 else 1
  | j + 1 => if (b2jFun s (s.getD (j + 1) 'a')).isEmpty then 0 else jfRun s j + 1

/-- The junk-free run ending just before position `i` (0 at the start). -/
def jfP (s : List Char) : Nat → Nat
  | 0 => 0
  | i + 1 => jfRun s i

/-- Validity of a block: inside the region on both sides. -/
def blockOk (alo ahi blo bhi : Nat) (t : Nat × Nat × Nat) : Prop :=
  alo ≤ t.1 ∧ blo ≤ t.2.1 ∧ t.1 + t.2.2 ≤ ahi ∧ t.2.1 + t.2.2 ≤ bhi

/-! # Verification

Basic lemmas about the dict and set embeddings, then the claims. -/

theorem dictLookup_nil {α : Type} (x : String) : dictLookup ([] : List (String × α)) x = none := rfl

theorem dictLookup_cons {α : Type} (p : String × α) (r : List (String × α)) (x : String) :
    dictLookup (p :: r) x = if p.1 = x then some p.2 else dictLookup r x := by
  by_cases h : p.1 = x <;> simp [dictLookup, List.find?_cons, h]

theorem dictLookup_append {α : Type} (r s : List (String × α)) (x : String) :
    dictLookup (r ++ s) x =
      match dictLookup r x with
      | some v => some v
      | none => dictLookup s x := by
  induction r with
  | nil => simp [dictLookup]
  | cons p r ih =>
    by_cases h : p.1 = x <;> simp [dictLookup_cons, h, ih]

theorem any_key_false_lookup {α : Type} (r : List (String × α)) (k : String)
    (h : r.any (fun p => p.1 = k) = false) : dictLookup r k = none := by
  induction r with
  | nil => rfl
  | cons p r ih =>
    simp only [List.any_cons, Bool.or_eq_false_iff] at h
    have h1 : p.1 ≠ k := by simpa using h.1
    simp [dictLookup_cons, h1, ih h.2]

theorem dictLookup_map_update {α : Type} (r : List (String × α)) (k : String) (v : α)
    (x : String) (hx : x ≠ k) :
    dictLookup (r.map (fun p => if p.1 = k then (k, v) else p)) x = dictLookup r x := by
  induction r with
  | nil => rfl
  | cons p r ih =>
    by_cases h : p.1 = k
    · simp [h, dictLookup_cons, Ne.symm hx, ih]
    · simp [h, dictLookup_cons, ih]

theorem dictLookup_map_update_self {α : Type} (r : List (String × α)) (k : String) (v : α)
    (h : r.any (fun p => p.1 = k) = true) :
    dictLookup (r.map (fun p => if p.1 = k then (k, v) else p)) k = some v := by
  induction r with
  | nil => simp at h
  | cons p r ih =>
    by_cases hp : p.1 = k
    · simp [hp, dictLookup_cons]
    · simp only [List.any_cons, hp, Bool.or_eq_true] at h
      simp only [List.map_cons, hp, if_neg hp, dictLookup_cons]
      rcases h with h | h
      · simp [hp] at h
      · simp [hp, ih h]

/-- Dict assignment has the expected lookup behaviour. -/
theorem dictLookup_dictSet {α : Type} (r : List (String × α)) (k : String) (v : α)
    (x : String) :
    dictLookup (dictSet r k v) x = if x = k then some v else dictLookup r x := by
  unfold dictSet
  by_cases hany : r.any (fun p => p.1 = k) = true
  · rw [if_pos hany]
    by_cases hx : x = k
    · rw [if_pos hx, hx]
      exact dictLookup_map_update_self r k v hany
    · rw [if_neg hx]
      exact dictLookup_map_update r k v x hx
  · rw [if_neg hany, dictLookup_append]
    have hnone : dictLookup r k = none :=
      any_key_false_lookup r k (Bool.eq_false_iff.mpr hany)
    by_cases hx : x = k
    · subst hx
      rw [hnone]
      simp [dictLookup_cons]
    · rw [if_neg hx]
      cases h : dictLookup r x with
      | some v' => simp
      | none => simp [dictLookup_cons, dictLookup_nil, Ne.symm hx]

theorem keys_dictSet {α : Type} (r : List (String × α)) (k : String) (v : α) :
    keys (dictSet r k v) =
      if r.any (fun p => p.1 = k) then keys r else keys r ++ [k] := by
  unfold dictSet keys
  by_cases hany : r.any (fun p => p.1 = k) = true
  · simp only [hany, if_true, List.map_map]
    congr 1
    funext p
    by_cases h : p.1 = k <;> simp [h]
  · simp only [Bool.not_eq_true] at hany
    simp [hany]

theorem any_key_iff {α : Type} (r : List (String × α)) (k : String) :
    r.any (fun p => p.1 = k) = true ↔ k ∈ keys r := by
  simp [keys, List.any_eq_true, List.mem_map]

theorem keys_append {α : Type} (r s : List (String × α)) :
    keys (r ++ s) = keys r ++ keys s := by
  simp [keys]

theorem dictSet_of_not_mem_keys {α : Type} {r : List (String × α)} {k : String}
    (v : α) (h : ¬ k ∈ keys r) : dictSet r k v = r ++ [(k, v)] := by
  unfold dictSet
  rw [if_neg]
  intro hc
  exact h ((any_key_iff r k).mp hc)

theorem dictSet_overwrite_head {α : Type} (k : String) (v0 v : α)
    (rest : List (String × α)) (h : ∀ p ∈ rest, p.1 ≠ k) :
    dictSet ((k, v0) :: rest) k v = (k, v) :: rest := by
  unfold dictSet
  rw [if_pos (by simp [List.any_cons])]
  simp only [List.map_cons, if_pos rfl]
  congr 1
  have he : ∀ p ∈ rest, (if p.1 = k then (k, v) else p) = p :=
    fun p hp => if_neg (h p hp)
  rw [List.map_congr_left he]
  exact List.map_id rest

theorem mem_firstDedupAux (x : String) :
    ∀ (l seen : List String), x ∈ firstDedupAux seen l ↔ x ∈ l ∧ ¬ x ∈ seen := by
  intro l
  induction l with
  | nil => intro seen; simp [firstDedupAux]
  | cons a l ih =>
    intro seen
    by_cases ha : a ∈ seen
    · rw [firstDedupAux, if_pos ha, ih]
      constructor
      · rintro ⟨h1, h2⟩; exact ⟨List.mem_cons_of_mem _ h1, h2⟩
      · rintro ⟨h1, h2⟩
        rcases List.mem_cons.mp h1 with rfl | h1
        · exact absurd ha h2
        · exact ⟨h1, h2⟩
    · rw [firstDedupAux, if_neg ha]
      by_cases hx : x = a
      · subst hx; simp [ha]
      · simp only [List.mem_cons, hx, false_or, ih]

theorem nodup_firstDedupAux :
    ∀ (l seen : List String), (firstDedupAux seen l).Nodup := by
  intro l
  induction l with
  | nil => intro seen; simp [firstDedupAux]
  | cons a l ih =>
    intro seen
    by_cases ha : a ∈ seen
    · rw [firstDedupAux, if_pos ha]; exact ih seen
    · rw [firstDedupAux, if_neg ha]
      refine List.Nodup.cons ?_ (ih (a :: seen))
      intro hc
      exact ((mem_firstDedupAux a l (a :: seen)).mp hc).2 (List.mem_cons_self a seen)

theorem firstDedupAux_of_nodup :
    ∀ (l seen : List String), l.Nodup → (∀ x ∈ l, ¬ x ∈ seen) →
      firstDedupAux seen l = l := by
  intro l
  induction l with
  | nil => intro seen _ _; rfl
  | cons a l ih =>
    intro seen hnd hdis
    rw [firstDedupAux, if_neg (hdis a (List.mem_cons_self a l))]
    congr 1
    refine ih (a :: seen) (List.Nodup.of_cons hnd) ?_
    intro x hx hc
    rcases List.mem_cons.mp hc with rfl | hc
    · exact (List.nodup_cons.mp hnd).1 hx
    · exact hdis x (List.mem_cons_of_mem _ hx) hc

theorem mem_firstDedup (x : String) (l : List String) :
    x ∈ firstDedup l ↔ x ∈ l := by
  rw [firstDedup, mem_firstDedupAux]
  simp

theorem nodup_firstDedup (l : List String) : (firstDedup l).Nodup :=
  nodup_firstDedupAux l []

theorem firstDedup_of_nodup {l : List String} (h : l.Nodup) : firstDedup l = l :=
  firstDedupAux_of_nodup l [] h (fun _ _ hc => (List.not_mem_nil _) hc)

/-- Folding dict assignments of fresh keys just appends the bindings. -/
theorem foldl_dictSet_disjoint (g : String → String) :
    ∀ (cols : List String) (acc : List (String × String)), cols.Nodup →
      (∀ c ∈ cols, ¬ c ∈ keys acc) →
      cols.foldl (fun r c => dictSet r c (g c)) acc
        = acc ++ cols.map (fun c => (c, g c)) := by
  intro cols
  induction cols with
  | nil => intro acc _ _; simp
  | cons c cs ih =>
    intro acc hnd hdis
    have hside : ∀ c' ∈ cs, ¬ c' ∈ keys (acc ++ [(c, g c)]) := by
      intro c' hc'
      rw [keys_append]
      simp only [List.mem_append]
      rintro (h | h)
      · exact hdis c' (List.mem_cons_of_mem _ hc') h
      · have : c' = c := by simpa [keys] using h
        exact (List.nodup_cons.mp hnd).1 (this ▸ hc')
    rw [List.foldl_cons,
      dictSet_of_not_mem_keys (g c) (hdis c (List.mem_cons_self c cs)),
      ih (acc ++ [(c, g c)]) (List.Nodup.of_cons hnd) hside]
    simp

/-- The canonical shape of a merged row's fold: the seed key first (possibly
overwritten), then the remaining columns in order. -/
theorem foldl_dictSet_form (g : String → String) (F v0 : String)
    (cols : List String) (h : cols.Nodup) :
    cols.foldl (fun r c => dictSet r c (g c)) [(F, v0)]
      = (F, if F ∈ cols then g F else v0) ::
        (cols.filter (fun c => c ≠ F)).map (fun c => (c, g c)) := by
  by_cases hF : F ∈ cols
  · obtain ⟨l₁, l₂, rfl⟩ := List.append_of_mem hF
    have hnd := h
    rw [List.nodup_append] at hnd
    obtain ⟨h1, h2, hdisj⟩ := hnd
    have hF1 : ¬ F ∈ l₁ := fun hc => hdisj hc (List.mem_cons_self F l₂)
    have hF2 : ¬ F ∈ l₂ := (List.nodup_cons.mp h2).1
    have hl2 : l₂.Nodup := (List.nodup_cons.mp h2).2
    have e1 : l₁.foldl (fun r c => dictSet r c (g c)) [(F, v0)]
        = (F, v0) :: l₁.map (fun c => (c, g c)) := by
      rw [foldl_dictSet_disjoint g l₁ [(F, v0)] h1
        (fun c hc => by
          simp only [keys, List.map_cons, List.map_nil, List.mem_singleton]
          rintro rfl
          exact hF1 hc)]
      simp
    have e2 : dictSet ((F, v0) :: l₁.map (fun c => (c, g c))) F (g F)
        = (F, g F) :: l₁.map (fun c => (c, g c)) :=
      dictSet_overwrite_head F v0 (g F) (l₁.map fun c => (c, g c))
        (fun p hp => by
          obtain ⟨c, hc, rfl⟩ := List.mem_map.mp hp
          rintro rfl
          exact hF1 hc)
    have e3 : l₂.foldl (fun r c => dictSet r c (g c))
          ((F, g F) :: l₁.map (fun c => (c, g c)))
        = ((F, g F) :: l₁.map (fun c => (c, g c))) ++ l₂.map (fun c => (c, g c)) :=
      foldl_dictSet_disjoint g l₂ ((F, g F) :: l₁.map fun c => (c, g c)) hl2
        (fun c hc => by
          simp only [keys, List.map_cons, List.map_map, List.mem_cons]
          rintro (rfl | hmem)
          · exact hF2 hc
          · obtain ⟨c', hc', he⟩ := List.mem_map.mp hmem
            simp only [Function.comp] at he
            exact hdisj (he ▸ hc') (List.mem_cons_of_mem _ hc))
    rw [List.foldl_append, e1, List.foldl_cons, e2, e3, if_pos hF]
    have hfilter :
        (l₁ ++ F :: l₂).filter (fun c => c ≠ F) = l₁ ++ l₂ := by
      rw [List.filter_append]
      congr 1
      · rw [List.filter_eq_self]
        intro c hc
        simp only [decide_eq_true_eq]
        rintro rfl
        exact hF1 hc
      · rw [List.filter_cons]
        simp only [ne_eq, not_true_eq_false, decide_False]
        rw [List.filter_eq_self.mpr]
        · simp
        · intro c hc
          simp only [decide_eq_true_eq]
          rintro rfl
          exact hF2 hc
    rw [hfilter]
    simp
  · rw [foldl_dictSet_disjoint g cols [(F, v0)] h
      (fun c hc => by
        simp only [keys, List.map_cons, List.map_nil, List.mem_singleton]
        rintro rfl
        exact hF hc),
      if_neg hF]
    have : cols.filter (fun c => c ≠ F) = cols := by
      rw [List.filter_eq_self]
      intro c hc
      simp only [decide_eq_true_eq]
      rintro rfl
      exact hF hc
    rw [this]
    simp

/-- Lookup through a fold of dict assignments with column-determined values. -/
theorem dictLookup_foldl_dictSet (g : String → String) (x : String) :
    ∀ (cols : List String) (acc : List (String × String)),
      dictLookup (cols.foldl (fun r c => dictSet r c (g c)) acc) x
        = if x ∈ cols then some (g x) else dictLookup acc x := by
  intro cols
  induction cols with
  | nil => intro acc; simp
  | cons c cs ih =>
    intro acc
    rw [List.foldl_cons, ih]
    by_cases hcs : x ∈ cs
    · rw [if_pos hcs, if_pos (List.mem_cons_of_mem _ hcs)]
    · rw [if_neg hcs, dictLookup_dictSet]
      by_cases hxc : x = c
      · subst hxc
        rw [if_pos rfl, if_pos (List.mem_cons_self x cs)]
      · rw [if_neg hxc, if_neg (by simp [List.mem_cons, hxc, hcs])]

/-! ### The code-point order and `sorted(set(...))` -/

theorem char_eq_of_toNat (a b : Char) (h : a.toNat = b.toNat) : a = b :=
  Char.eq_of_val_eq (UInt32.ext h)

theorem ltChars_irrefl : ∀ l, ltChars l l = false := by
  intro l
  induction l with
  | nil => rfl
  | cons a l ih => simp [ltChars, ih]

theorem ltChars_asymm : ∀ l m, ltChars l m = true → ltChars m l = false := by
  intro l
  induction l with
  | nil =>
    intro m h
    cases m with
    | nil => simpa [ltChars] using h
    | cons b bs => rfl
  | cons a as ih =>
    intro m h
    cases m with
    | nil => simp [ltChars] at h
    | cons b bs =>
      rw [ltChars] at h ⊢
      by_cases h1 : a.toNat < b.toNat
      · rw [if_neg (Nat.lt_asymm h1), if_pos h1]
      · rw [if_neg h1] at h
        by_cases h2 : b.toNat < a.toNat
        · rw [if_pos h2] at h; exact absurd h (by simp)
        · rw [if_neg h2] at h
          rw [if_neg h2, if_neg h1]
          exact ih bs h

theorem ltChars_connex : ∀ l m, ltChars l m = false → ltChars m l = false → l = m := by
  intro l
  induction l with
  | nil =>
    intro m h _
    cases m with
    | nil => rfl
    | cons b bs => simp [ltChars] at h
  | cons a as ih =>
    intro m h h'
    cases m with
    | nil => simp [ltChars] at h'
    | cons b bs =>
      rw [ltChars] at h h'
      by_cases h1 : a.toNat < b.toNat
      · rw [if_pos h1] at h; exact absurd h (by simp)
      · rw [if_neg h1] at h
        by_cases h2 : b.toNat < a.toNat
        · rw [if_pos h2] at h'; exact absurd h' (by simp)
        · rw [if_neg h2] at h
          rw [if_neg h2, if_neg h1] at h'
          have hab : a = b := char_eq_of_toNat a b (Nat.le_antisymm
            (Nat.le_of_not_lt h2) (Nat.le_of_not_lt h1))
          rw [hab, ih bs h h']

theorem ltChars_trans : ∀ l m n, ltChars l m = true → ltChars m n = true →
    ltChars l n = true := by
  intro l
  induction l with
  | nil =>
    intro m n h h'
    cases n with
    | nil =>
      cases m with
      | nil => simpa [ltChars] using h
      | cons b bs => simp [ltChars] at h'
    | cons c cs => rfl
  | cons a as ih =>
    intro m n h h'
    cases m with
    | nil => simp [ltChars] at h
    | cons b bs =>
      cases n with
      | nil => simp [ltChars] at h'
      | cons c cs =>
        rw [ltChars] at h h' ⊢
        by_cases h1 : a.toNat < b.toNat
        · by_cases h2 : b.toNat < c.toNat
          · rw [if_pos (Nat.lt_trans h1 h2)]
          · rw [if_neg h2] at h'
            by_cases h3 : c.toNat < b.toNat
            · rw [if_pos h3] at h'; exact absurd h' (by simp)
            · have hbc : b.toNat = c.toNat :=
                Nat.le_antisymm (Nat.le_of_not_lt h3) (Nat.le_of_not_lt h2)
              rw [if_pos (hbc ▸ h1)]
        · rw [if_neg h1] at h
          by_cases h4 : b.toNat < a.toNat
          · rw [if_pos h4] at h; exact absurd h (by simp)
          · rw [if_neg h4] at h
            have hab : a.toNat = b.toNat :=
              Nat.le_antisymm (Nat.le_of_not_lt h4) (Nat.le_of_not_lt h1)
            by_cases h2 : b.toNat < c.toNat
            · rw [if_pos (hab ▸ h2)]
            · rw [if_neg h2] at h'
              by_cases h3 : c.toNat < b.toNat
              · rw [if_pos h3] at h'; exact absurd h' (by simp)
              · rw [if_neg h3] at h'
                have hbc : b.toNat = c.toNat :=
                  Nat.le_antisymm (Nat.le_of_not_lt h3) (Nat.le_of_not_lt h2)
                rw [if_neg (by rw [hab, hbc]; exact Nat.lt_irrefl _),
                  if_neg (by rw [hab, hbc]; exact Nat.lt_irrefl _)]
                exact ih bs cs h h'

theorem pyLt_irrefl (s : String) : pyLt s s = false := ltChars_irrefl s.data

theorem pyLt_asymm {s t : String} (h : pyLt s t = true) : pyLt t s = false :=
  ltChars_asymm s.data t.data h

theorem pyLt_connex {s t : String} (h : pyLt s t = false) (h' : pyLt t s = false) :
    s = t := by
  have := ltChars_connex s.data t.data h h'
  cases s; cases t; exact congrArg String.mk this

theorem pyLt_trans {s t u : String} (h : pyLt s t = true) (h' : pyLt t u = true) :
    pyLt s u = true := ltChars_trans s.data t.data u.data h h'

/-- Exactly one of `x = y`, `x < y`, `y < x` holds. -/
theorem pyLt_trichotomy (x y : String) :
    x = y ∨ (pyLt x y = true ∧ pyLt y x = false ∧ x ≠ y) ∨
      (pyLt y x = true ∧ pyLt x y = false ∧ x ≠ y) := by
  by_cases he : x = y
  · exact Or.inl he
  · cases h1 : pyLt x y with
    | true => exact Or.inr (Or.inl ⟨rfl, pyLt_asymm h1, he⟩)
    | false =>
      cases h2 : pyLt y x with
      | true => exact Or.inr (Or.inr ⟨rfl, rfl, he⟩)
      | false => exact absurd (pyLt_connex h1 h2) he

theorem insD_nil (x : String) : insD x [] = [x] := rfl

theorem insD_cons (x y : String) (ys : List String) :
    insD x (y :: ys) =
      if x = y then y :: ys
      else if pyLt x y then x :: y :: ys
      else y :: insD x ys := rfl

/-- `insD` of two elements in either order, when the first is smaller. -/
theorem insD_comm_lt {x y : String} (hxy : pyLt x y = true) :
    ∀ l, insD x (insD y l) = insD y (insD x l) := by
  have hyx : pyLt y x = false := pyLt_asymm hxy
  have he : x ≠ y := by
    rintro rfl
    rw [pyLt_irrefl] at hxy
    exact absurd hxy (by simp)
  intro l
  induction l with
  | nil => simp [insD_nil, insD_cons, he, Ne.symm he, hxy, hyx]
  | cons z zs ih =>
    by_cases hyz : y = z
    · subst hyz
      simp [insD_cons, he, Ne.symm he, hxy, hyx]
    · by_cases hxz : x = z
      · subst hxz
        simp [insD_cons, he, Ne.symm he, hxy, hyx, hyz]
      · cases hyz2 : pyLt y z with
        | true =>
          have hxz2 : pyLt x z = true := pyLt_trans hxy hyz2
          simp [insD_cons, he, Ne.symm he, hxy, hyx, hyz, hxz, hyz2, hxz2]
        | false =>
          cases hxz2 : pyLt x z with
          | true =>
            simp [insD_cons, he, Ne.symm he, hxy, hyx, hyz, hxz, hyz2, hxz2]
          | false =>
            simp [insD_cons, hyz, hxz, hyz2, hxz2, ih]

/-- `insD` inserts independent elements in either order. -/
theorem insD_comm (x y : String) (l : List String) :
    insD x (insD y l) = insD y (insD x l) := by
  rcases pyLt_trichotomy x y with rfl | ⟨hxy, _, _⟩ | ⟨hyx, _, _⟩
  · rfl
  · exact insD_comm_lt hxy l
  · exact (insD_comm_lt hyx l).symm

theorem sortedDedup_cons (x : String) (l : List String) :
    sortedDedup (x :: l) = insD x (sortedDedup l) := rfl

/-- `sorted(set(l))` only depends on the multiset of elements. -/
theorem sortedDedup_perm {l l' : List String} (h : l.Perm l') :
    sortedDedup l = sortedDedup l' := by
  induction h with
  | nil => rfl
  | cons x _ ih => rw [sortedDedup_cons, sortedDedup_cons, ih]
  | swap x y l => exact (insD_comm x y (sortedDedup l)).symm
  | trans _ _ ih1 ih2 => exact ih1.trans ih2

/-! ### Idempotence of `strip` -/

theorem dropWhile_head_false (p : Char → Bool) :
    ∀ {l : List Char} {h : Char} {t : List Char},
      List.dropWhile p l = h :: t → p h = false := by
  intro l
  induction l with
  | nil => intro h t hc; simp [List.dropWhile] at hc
  | cons a l ih =>
    intro h t hc
    rw [List.dropWhile_cons] at hc
    by_cases hp : p a = true
    · rw [if_pos hp] at hc; exact ih hc
    · rw [if_neg hp] at hc
      cases hc
      exact Bool.eq_false_iff.mpr hp

theorem dropWhile_eq_self_of_head (p : Char → Bool) (l : List Char)
    (h : ∀ c, l.head? = some c → p c = false) : l.dropWhile p = l := by
  cases l with
  | nil => rfl
  | cons a l =>
    rw [List.dropWhile_cons, if_neg]
    simp [h a rfl]

theorem getLast?_dropWhile (p : Char → Bool) :
    ∀ l : List Char, l.dropWhile p ≠ [] →
      (l.dropWhile p).getLast? = l.getLast? := by
  intro l
  induction l with
  | nil => intro h; simp [List.dropWhile] at h
  | cons a l ih =>
    intro h
    rw [List.dropWhile_cons] at h ⊢
    by_cases hp : p a = true
    · rw [if_pos hp] at h ⊢
      rw [ih h]
      cases l with
      | nil => simp [List.dropWhile] at h
      | cons b l => rw [List.getLast?_cons_cons]
    · rw [if_neg hp]

theorem stripChars_idem (l : List Char) : stripChars (stripChars l) = stripChars l := by
  have key : ∀ m : List Char,
      (stripChars m).dropWhile pyWS = stripChars m ∧
      (stripChars m).reverse.dropWhile pyWS = (stripChars m).reverse := by
    intro m
    cases hC : (m.dropWhile pyWS).reverse.dropWhile pyWS with
    | nil =>
      constructor <;> simp [stripChars, hC]
    | cons c ct =>
      have head_c : pyWS c = false := dropWhile_head_false pyWS hC
      have hlast : ∀ x, (c :: ct).getLast? = some x → pyWS x = false := by
        intro x hx
        have hne : (m.dropWhile pyWS).reverse.dropWhile pyWS ≠ [] := by
          rw [hC]; simp
        have h1 := getLast?_dropWhile pyWS (m.dropWhile pyWS).reverse hne
        rw [hC] at h1
        rw [h1, ← List.head?_reverse, List.reverse_reverse] at hx
        cases hAd : m.dropWhile pyWS with
        | nil => rw [hAd] at hx; simp at hx
        | cons a t =>
          rw [hAd] at hx
          simp only [List.head?_cons, Option.some.injEq] at hx
          subst hx
          exact dropWhile_head_false pyWS hAd
      constructor
      · apply dropWhile_eq_self_of_head
        intro x hx
        simp only [stripChars, hC, List.head?_reverse] at hx
        exact hlast x hx
      · simp only [stripChars, hC, List.reverse_reverse]
        apply dropWhile_eq_self_of_head
        intro x hx
        simp only [List.head?_cons, Option.some.injEq] at hx
        subst hx
        exact head_c
  obtain ⟨e1, e2⟩ := key l
  calc stripChars (stripChars l)
      = (((stripChars l).dropWhile pyWS).reverse.dropWhile pyWS).reverse := rfl
    _ = ((stripChars l).reverse.dropWhile pyWS).reverse := by rw [e1]
    _ = ((stripChars l).reverse).reverse := by rw [e2]
    _ = stripChars l := List.reverse_reverse _

theorem pyStrip_idem (s : String) : pyStrip (pyStrip s) = pyStrip s :=
  congrArg String.mk (stripChars_idem s.data)

theorem pyStrip_empty : pyStrip "" = "" := rfl

theorem pyLower_empty : pyLower "" = "" := rfl

/-! ### Ledger Normalizer: commutativity -/

theorem mergedValue_perm {rows rows' : List (List (String × String))}
    (h : rows.Perm rows') (f c : String) :
    mergedValue rows f c = mergedValue rows' f c := by
  unfold mergedValue collectedVals groupRows
  exact congrArg joinNL (sortedDedup_perm (List.Perm.flatMap_right _ (h.filter _)))

theorem mem_colsOfGroup_perm {rows rows' : List (List (String × String))}
    (h : rows.Perm rows') (f c : String) :
    c ∈ colsOfGroup rows f ↔ c ∈ colsOfGroup rows' f := by
  unfold colsOfGroup groupRows
  rw [mem_firstDedup, mem_firstDedup]
  exact (List.Perm.flatMap_right keys (h.filter _)).mem_iff

theorem dictLookup_mergeRow (rows : List (List (String × String))) (f c : String) :
    dictLookup (mergeRow rows f) c =
      if c ∈ colsOfGroup rows f then some (mergedValue rows f c)
      else if c = "Filename" then some f else none := by
  unfold mergeRow
  rw [dictLookup_foldl_dictSet]
  by_cases hc : c ∈ colsOfGroup rows f
  · rw [if_pos hc, if_pos hc]
  · rw [if_neg hc, if_neg hc, dictLookup_cons]
    by_cases he : c = "Filename"
    · rw [if_pos he, if_pos (by rw [he])]
    · rw [if_neg he, if_neg (fun hh => he hh.symm), dictLookup_nil]

/-- Permuting the raw rows leaves every merged row unchanged as a mapping. -/
theorem mergeRow_perm {rows rows' : List (List (String × String))}
    (h : rows.Perm rows') (f c : String) :
    dictLookup (mergeRow rows f) c = dictLookup (mergeRow rows' f) c := by
  rw [dictLookup_mergeRow, dictLookup_mergeRow]
  by_cases hc : c ∈ colsOfGroup rows f
  · rw [if_pos hc, if_pos ((mem_colsOfGroup_perm h f c).mp hc),
      mergedValue_perm h f c]
  · rw [if_neg hc, if_neg (fun hh => hc ((mem_colsOfGroup_perm h f c).mpr hh))]

/-! ### Ledger Normalizer: idempotence on duplicate-free ledgers -/

theorem dictLookup_some_of_mem_keys {α : Type} {r : List (String × α)} {c : String}
    (h : c ∈ keys r) : ∃ v, dictLookup r c = some v := by
  induction r with
  | nil => simp [keys] at h
  | cons p t ih =>
    rw [keys, List.map_cons, List.mem_cons] at h
    by_cases hp : p.1 = c
    · exact ⟨p.2, by simp [dictLookup_cons, hp]⟩
    · rcases h with h' | h'
      · exact absurd h'.symm hp
      · obtain ⟨v, hv⟩ := ih h'
        exact ⟨v, by simp [dictLookup_cons, hp, hv]⟩

theorem filter_eq_nil_of_keys {rows : List (List (String × String))} {k : String}
    (h : ∀ r ∈ rows, rowKey r ≠ k) : rows.filter (fun r => rowKey r = k) = [] := by
  induction rows with
  | nil => rfl
  | cons r t ih =>
    rw [List.filter_cons, if_neg (by simp [h r (List.mem_cons_self r t)])]
    exact ih (fun r' hr' => h r' (List.mem_cons_of_mem _ hr'))

/-- With pairwise-distinct normalized filenames, each row is its own group. -/
theorem groupRows_self_singleton {rows : List (List (String × String))}
    {r : List (String × String)} (hnd : (rows.map rowKey).Nodup) (hr : r ∈ rows) :
    groupRows rows (rowKey r) = [r] := by
  induction rows with
  | nil => simp at hr
  | cons r0 t ih =>
    rw [List.map_cons, List.nodup_cons] at hnd
    rcases List.mem_cons.mp hr with rfl | hr'
    · unfold groupRows
      rw [List.filter_cons, if_pos (by simp)]
      rw [filter_eq_nil_of_keys (fun r' hr' hk =>
        hnd.1 (by rw [← hk]; exact List.mem_map_of_mem rowKey hr'))]
    · have hne : rowKey r0 ≠ rowKey r := by
        intro hc
        exact hnd.1 (by rw [hc]; exact List.mem_map_of_mem rowKey hr')
      unfold groupRows
      rw [List.filter_cons, if_neg (by simp [hne])]
      exact ih hnd.2 hr'

/-- In a duplicate-free row, filtering by key finds exactly the binding. -/
theorem row_filter_lookup {r : List (String × String)} (hnd : (keys r).Nodup)
    (c : String) :
    r.filter (fun p => p.1 = c) =
      match dictLookup r c with
      | some v => [(c, v)]
      | none => [] := by
  induction r with
  | nil => rfl
  | cons p t ih =>
    rw [keys, List.map_cons, List.nodup_cons] at hnd
    by_cases hp : p.1 = c
    · rw [List.filter_cons, if_pos (by simp [hp]), dictLookup_cons, if_pos hp]
      have : t.filter (fun q => q.1 = c) = [] := by
        rw [List.filter_eq_nil_iff]
        intro q hq
        simp only [decide_eq_true_eq]
        intro hqc
        exact hnd.1 (hp ▸ hqc ▸ List.mem_map_of_mem Prod.fst hq)
      rw [this]
      cases p with
      | mk k v => simp only at hp; subst hp; rfl
    · rw [List.filter_cons, if_neg (by simp [hp]), dictLookup_cons, if_neg hp]
      exact ih hnd.2

theorem dictLookup_none_of_not_mem_keys {α : Type} {r : List (String × α)} {c : String}
    (h : ¬ c ∈ keys r) : dictLookup r c = none :=
  any_key_false_lookup r c (by
    rw [Bool.eq_false_iff]
    intro hc
    exact h ((any_key_iff r c).mp hc))

theorem dictLookup_map_self (g : String → String) (x : String) :
    ∀ cl : List String,
      dictLookup (cl.map (fun c => (c, g c))) x =
        if x ∈ cl then some (g x) else none := by
  intro cl
  induction cl with
  | nil => simp [dictLookup]
  | cons c cs ih =>
    rw [List.map_cons, dictLookup_cons]
    by_cases hc : c = x
    · subst hc; simp
    · rw [if_neg hc, ih]
      by_cases hx : x ∈ cs
      · rw [if_pos hx, if_pos (List.mem_cons_of_mem _ hx)]
      · rw [if_neg hx, if_neg (by
          simp only [List.mem_cons, hx, or_false]
          intro h
          exact hc h.symm)]

theorem collectedVals_singleton {rows : List (List (String × String))}
    {r : List (String × String)} (hnd : (rows.map rowKey).Nodup) (hr : r ∈ rows)
    (hk : (keys r).Nodup) (c : String) :
    collectedVals rows (rowKey r) c =
      match dictLookup r c with
      | some v => [pyStrip v]
      | none => [] := by
  unfold collectedVals
  rw [show (groupRows rows (rowKey r)) = [r] from groupRows_self_singleton hnd hr]
  simp only [List.flatMap_cons, List.flatMap_nil, List.append_nil]
  rw [row_filter_lookup hk c]
  cases dictLookup r c <;> simp

theorem mergedValue_singleton {rows : List (List (String × String))}
    {r : List (String × String)} (hnd : (rows.map rowKey).Nodup) (hr : r ∈ rows)
    (hk : (keys r).Nodup) {c : String} {v : String} (hv : dictLookup r c = some v) :
    mergedValue rows (rowKey r) c = pyStrip v := by
  unfold mergedValue
  rw [collectedVals_singleton hnd hr hk c, hv]
  rfl

theorem colsOfGroup_singleton {rows : List (List (String × String))}
    {r : List (String × String)} (hnd : (rows.map rowKey).Nodup) (hr : r ∈ rows)
    (hk : (keys r).Nodup) :
    colsOfGroup rows (rowKey r) = keys r := by
  unfold colsOfGroup
  rw [show (groupRows rows (rowKey r)) = [r] from groupRows_self_singleton hnd hr]
  simp only [List.flatMap_cons, List.flatMap_nil, List.append_nil]
  exact firstDedup_of_nodup hk

/-- The canonical shape of a singleton-group merged row. -/
theorem mergeRow_singleton {rows : List (List (String × String))}
    {r : List (String × String)} (hnd : (rows.map rowKey).Nodup) (hr : r ∈ rows)
    (hk : (keys r).Nodup) :
    mergeRow rows (rowKey r)
      = ("Filename",
          if "Filename" ∈ keys r then mergedValue rows (rowKey r) "Filename"
          else rowKey r) ::
        ((keys r).filter (fun c => c ≠ "Filename")).map
          (fun c => (c, mergedValue rows (rowKey r) c)) := by
  unfold mergeRow
  rw [colsOfGroup_singleton hnd hr hk]
  exact foldl_dictSet_form (mergedValue rows (rowKey r)) "Filename" (rowKey r)
    (keys r) hk

/-- The `"Filename"` cell of a singleton-group merged row is strip-stable,
and re-normalizing its filename gives back the group key. -/
theorem mergeRow_fnameVal {rows : List (List (String × String))}
    {r : List (String × String)} (hnd : (rows.map rowKey).Nodup) (hr : r ∈ rows)
    (hk : (keys r).Nodup) :
    ∃ vF, dictLookup (mergeRow rows (rowKey r)) "Filename" = some vF ∧
      pyStrip vF = vF ∧ pyLower (pyStrip vF) = rowKey r := by
  rw [mergeRow_singleton hnd hr hk, dictLookup_cons, if_pos rfl]
  by_cases hF : "Filename" ∈ keys r
  · obtain ⟨v, hv⟩ := dictLookup_some_of_mem_keys hF
    rw [if_pos hF, mergedValue_singleton hnd hr hk hv]
    refine ⟨pyStrip v, rfl, pyStrip_idem v, ?_⟩
    have : rowKey r = pyLower (pyStrip v) := by
      unfold rowKey dictLookupD
      rw [hv]
      rfl
    rw [this, pyStrip_idem]
  · have hnone : dictLookup r "Filename" = none := dictLookup_none_of_not_mem_keys hF
    have hkey : rowKey r = "" := by
      unfold rowKey dictLookupD
      rw [hnone]
      rfl
    rw [if_neg hF, hkey]
    exact ⟨"", rfl, rfl, rfl⟩

theorem rowKey_mergeRow {rows : List (List (String × String))}
    {r : List (String × String)} (hnd : (rows.map rowKey).Nodup) (hr : r ∈ rows)
    (hk : (keys r).Nodup) :
    rowKey (mergeRow rows (rowKey r)) = rowKey r := by
  obtain ⟨vF, hvF, _, hlow⟩ := mergeRow_fnameVal hnd hr hk
  show pyLower (pyStrip ((dictLookup (mergeRow rows (rowKey r)) "Filename").getD "")) = _
  rw [hvF]
  exact hlow

theorem keys_mergeRow {rows : List (List (String × String))}
    {r : List (String × String)} (hnd : (rows.map rowKey).Nodup) (hr : r ∈ rows)
    (hk : (keys r).Nodup) :
    keys (mergeRow rows (rowKey r))
      = "Filename" :: (keys r).filter (fun c => c ≠ "Filename") := by
  rw [mergeRow_singleton hnd hr hk]
  unfold keys
  rw [List.map_cons, List.map_map]
  congr 1
  exact List.map_id' _

theorem keys_mergeRow_nodup {rows : List (List (String × String))}
    {r : List (String × String)} (hnd : (rows.map rowKey).Nodup) (hr : r ∈ rows)
    (hk : (keys r).Nodup) :
    (keys (mergeRow rows (rowKey r))).Nodup := by
  rw [keys_mergeRow hnd hr hk]
  refine List.Nodup.cons ?_ (hk.filter _)
  intro hc
  have := List.of_mem_filter hc
  simp at this

/-- Re-merging the one-row group of a merged row reproduces it exactly. -/
theorem mergeRow_pass2 {rows : List (List (String × String))}
    {r : List (String × String)}
    (H1 : ∀ r' ∈ rows, (keys r').Nodup) (H2 : (rows.map rowKey).Nodup)
    (hr : r ∈ rows)
    (hmem : mergeRow rows (rowKey r) ∈ mergeExcelRows rows)
    (houtnd : ((mergeExcelRows rows).map rowKey).Nodup) :
    mergeRow (mergeExcelRows rows) (rowKey r) = mergeRow rows (rowKey r) := by
  have hk : (keys r).Nodup := H1 r hr
  have hko : rowKey (mergeRow rows (rowKey r)) = rowKey r := rowKey_mergeRow H2 hr hk
  have hknd : (keys (mergeRow rows (rowKey r))).Nodup := keys_mergeRow_nodup H2 hr hk
  have keysO := keys_mergeRow H2 hr hk
  obtain ⟨vF, hvF, hvFs, _⟩ := mergeRow_fnameVal H2 hr hk
  have e := @mergeRow_singleton (mergeExcelRows rows)
    (mergeRow rows (rowKey r)) houtnd hmem hknd
  rw [hko] at e
  rw [e]
  have hFmem : "Filename" ∈ keys (mergeRow rows (rowKey r)) := by
    rw [keysO]; exact List.mem_cons_self _ _
  rw [if_pos hFmem]
  have hgF : mergedValue (mergeExcelRows rows) (rowKey r) "Filename" = vF := by
    have h1 := mergedValue_singleton houtnd hmem hknd hvF
    rw [hko] at h1
    rw [h1, hvFs]
  have hfl : (keys (mergeRow rows (rowKey r))).filter (fun c => c ≠ "Filename")
      = (keys r).filter (fun c => c ≠ "Filename") := by
    rw [keysO, List.filter_cons, if_neg (by simp)]
    exact List.filter_eq_self.mpr (fun c hc => (List.mem_filter.mp hc).2)
  rw [hgF, hfl]
  have htail : ∀ c ∈ (keys r).filter (fun c => c ≠ "Filename"),
      mergedValue (mergeExcelRows rows) (rowKey r) c
        = mergedValue rows (rowKey r) c := by
    intro c hc
    have hcr : c ∈ keys r := (List.mem_filter.mp hc).1
    have hcF : c ≠ "Filename" := by
      have := (List.mem_filter.mp hc).2
      simpa using this
    obtain ⟨v, hv⟩ := dictLookup_some_of_mem_keys hcr
    have hg1 : mergedValue rows (rowKey r) c = pyStrip v :=
      mergedValue_singleton H2 hr hk hv
    have hvO : dictLookup (mergeRow rows (rowKey r)) c = some (pyStrip v) := by
      rw [mergeRow_singleton H2 hr hk, dictLookup_cons,
        if_neg (fun h => hcF h.symm), dictLookup_map_self]
      rw [if_pos hc, hg1]
    have h2 := mergedValue_singleton houtnd hmem hknd hvO
    rw [hko] at h2
    rw [h2, pyStrip_idem, hg1]
  have hvF2 : dictLookup (mergeRow rows (rowKey r)) "Filename"
      = some (if "Filename" ∈ keys r then mergedValue rows (rowKey r) "Filename"
              else rowKey r) := by
    rw [mergeRow_singleton H2 hr hk, dictLookup_cons, if_pos rfl]
  have hvFe : vF = if "Filename" ∈ keys r then mergedValue rows (rowKey r) "Filename"
      else rowKey r := Option.some.inj (hvF.symm.trans hvF2)
  rw [mergeRow_singleton H2 hr hk]
  congr 1
  · rw [hvFe]
  · exact List.map_congr_left (fun c hc => by rw [htail c hc])

/-- On ledgers with pairwise-distinct normalized filenames (and well-formed
rows), normalizing twice equals normalizing once. -/
theorem mergeExcelRows_idem (rows : List (List (String × String)))
    (H1 : ∀ r ∈ rows, (keys r).Nodup) (H2 : (rows.map rowKey).Nodup) :
    mergeExcelRows (mergeExcelRows rows) = mergeExcelRows rows := by
  have hout : mergeExcelRows rows = (rows.map rowKey).map (mergeRow rows) := by
    unfold mergeExcelRows
    rw [firstDedup_of_nodup H2]
  have hmapkey : (mergeExcelRows rows).map rowKey = rows.map rowKey := by
    rw [hout, List.map_map]
    calc (rows.map rowKey).map (rowKey ∘ mergeRow rows)
        = (rows.map rowKey).map (fun k => k) := by
          apply List.map_congr_left
          intro k hkmem
          obtain ⟨r, hr, rfl⟩ := List.mem_map.mp hkmem
          exact rowKey_mergeRow H2 hr (H1 r hr)
      _ = rows.map rowKey := List.map_id' _
  have houtnd : ((mergeExcelRows rows).map rowKey).Nodup := by
    rw [hmapkey]; exact H2
  have step : mergeExcelRows (mergeExcelRows rows)
      = (firstDedup ((mergeExcelRows rows).map rowKey)).map
          (mergeRow (mergeExcelRows rows)) := rfl
  rw [step, hmapkey, firstDedup_of_nodup H2]
  conv_rhs => rw [hout]
  apply List.map_congr_left
  intro k hkmem
  obtain ⟨r, hr, rfl⟩ := List.mem_map.mp hkmem
  have hmem : mergeRow rows (rowKey r) ∈ mergeExcelRows rows := by
    rw [hout]
    exact List.mem_map_of_mem (mergeRow rows) (List.mem_map_of_mem rowKey hr)
  exact mergeRow_pass2 H1 H2 hr hmem houtnd

/-- C6 counterexample: the Ledger Normalizer is not idempotent on every raw
ledger.  Two rows for `a.py` whose `ID` cells trim to `""` and `"x"` merge
to the single value `"\n"` + `"x"`, which a second normalization strips back
to `"x"` — the output changes. -/
theorem C6_counterexample :
    mergeExcelRows (mergeExcelRows
        [[("Filename", "a.py"), ("ID", "")], [("Filename", "a.py"), ("ID", "x")]])
      ≠ mergeExcelRows
        [[("Filename", "a.py"), ("ID", "")], [("Filename", "a.py"), ("ID", "x")]] := by
  decide

/-- C6 (amended): the merge is commutative — permuting the raw rows leaves
every merged row unchanged as a mapping (hence row order within any
duplicate-filename group does not matter) — and the normalizer is idempotent
on every ledger whose rows have pairwise-distinct normalized filenames and
no duplicated column inside one row. -/
theorem C6_merge_commutative_idem :
    (∀ (rows rows' : List (List (String × String))), rows.Perm rows' →
        ∀ f c, dictLookup (mergeRow rows f) c = dictLookup (mergeRow rows' f) c)
    ∧ (∀ rows : List (List (String × String)),
        (∀ r ∈ rows, (keys r).Nodup) → (rows.map rowKey).Nodup →
        mergeExcelRows (mergeExcelRows rows) = mergeExcelRows rows) :=
  ⟨fun _ _ h f c => mergeRow_perm h f c,
   fun rows h1 h2 => mergeExcelRows_idem rows h1 h2⟩

/-- C6 witness: both amended parts at concrete ledgers. -/
theorem C6_witness :
    dictLookup (mergeRow
        [[("Filename", "a.py"), ("ID", "7")], [("Filename", "b.py")]] "a.py") "ID"
      = dictLookup (mergeRow
        [[("Filename", "b.py")], [("Filename", "a.py"), ("ID", "7")]] "a.py") "ID"
    ∧ mergeExcelRows (mergeExcelRows [[("Filename", "a.py"), ("ID", "7")]])
      = mergeExcelRows [[("Filename", "a.py"), ("ID", "7")]] :=
  ⟨C6_merge_commutative_idem.1 _ _ (by decide) "a.py" "ID",
   C6_merge_commutative_idem.2 _ (by decide) (by decide)⟩

/-- C9: the comment-header extractor appends a colonless comment line to the
active key with a newline separator — the file `# ID: 42` / `# more text`
yields exactly the mapping ID ↦ "42" + newline + "more text" — and a
colonless comment line seen before any key/value pair contributes nothing:
dropping it leaves the extraction of the remaining lines unchanged. -/
theorem C9_comment_continuation :
    extract_comment_header ["# ID: 42", "# more text"] = [("ID", "42\nmore text")]
    ∧ (∀ (s : String) (rest : List String),
        startsHash (pyStrip s) = true →
        (pyStrip (lstripHash s)).data.contains ':' = false →
        extract_comment_header (s :: rest) = extract_comment_header rest) := by
  constructor
  · decide
  · intro s rest h1 h2
    unfold extract_comment_header
    rw [extractCommentGo]
    simp only [h1, h2]
    simp

/-- C9 witness: a leading colonless comment line is dropped. -/
theorem C9_witness :
    extract_comment_header ["# stray continuation", "# ID: 42"]
      = extract_comment_header ["# ID: 42"] :=
  C9_comment_continuation.2 "# stray continuation" ["# ID: 42"] (by decide) (by decide)

/-! ### C5: the literal-header extractor without a terminator -/

theorem javaCollect_no_term :
    ∀ post : List String, (∀ l ∈ post, subChars ['"', ';'] l.data = false) →
      javaCollect post true
        = (post.filter (fun l => ! subChars javaMarker.data l.data)).map pyStrip := by
  intro post
  induction post with
  | nil => intro _; rfl
  | cons l ls ih =>
    intro h
    rw [javaCollect, List.filter_cons]
    cases hm : subChars javaMarker.data l.data with
    | true => simp [ih (fun l' hl' => h l' (List.mem_cons_of_mem _ hl'))]
    | false =>
      simp [h l (List.mem_cons_self l ls),
        ih (fun l' hl' => h l' (List.mem_cons_of_mem _ hl'))]

theorem javaCollect_skip_pre :
    ∀ (pre rest : List String), (∀ l ∈ pre, subChars javaMarker.data l.data = false) →
      javaCollect (pre ++ rest) false = javaCollect rest false := by
  intro pre
  induction pre with
  | nil => intro rest _; rfl
  | cons l ls ih =>
    intro rest h
    rw [List.cons_append, javaCollect,
      if_neg (by simp [h l (List.mem_cons_self l ls)])]
    exact ih rest (fun l' hl' => h l' (List.mem_cons_of_mem _ hl'))

/-- C5 counterexample: a file whose marker line is followed by `id: 5` and
no terminator line.  The claim says the extractor returns an empty mapping;
it actually parses everything after the marker and returns ID ↦ "5". -/
theorem C5_counterexample :
    subChars javaMarker.data "public static String Header =".data = true
    ∧ (∀ l ∈ ["id: 5"], subChars ['"', ';'] l.data = false)
    ∧ extract_java_header ["public static String Header =", "id: 5"] = [("ID", "5")]
    ∧ extract_java_header ["public static String Header =", "id: 5"] ≠ [] := by
  refine ⟨by decide, by decide, by decide, by decide⟩

/-- C5 (amended): when the marker phrase appears and no later line contains
the terminator sequence `";`, the extractor does not fail: it scans to end
of file, collects every later stripped line (skipping further
marker-containing lines), and returns the parse of their concatenation —
which can be a non-empty mapping. -/
theorem C5_no_terminator_parses_rest :
    ∀ (pre post : List String) (m : String),
      (∀ l ∈ pre, subChars javaMarker.data l.data = false) →
      subChars javaMarker.data m.data = true →
      (∀ l ∈ post, subChars ['"', ';'] l.data = false) →
      extract_java_header (pre ++ m :: post)
        = (splitEscN (dropQuotes (dropQuotePlus (joinAll
            ((post.filter (fun l => ! subChars javaMarker.data l.data)).map
              pyStrip)).data))).foldl
            (fun data lc => javaParseLine data ⟨lc⟩) [] := by
  intro pre post m hpre hm hpost
  unfold extract_java_header
  rw [javaCollect_skip_pre pre (m :: post) hpre, javaCollect, if_pos hm,
    javaCollect_no_term post hpost]

/-- C5 witness: a concrete marker-but-no-terminator file parses its tail. -/
theorem C5_witness :
    extract_java_header ["package x", "public static String Header =", "id: 7"]
      = (splitEscN (dropQuotes (dropQuotePlus (joinAll
          ((["id: 7"].filter (fun l => ! subChars javaMarker.data l.data)).map
            pyStrip)).data))).foldl
          (fun data lc => javaParseLine data ⟨lc⟩) [] :=
  C5_no_terminator_parses_rest ["package x"] ["id: 7"]
    "public static String Header =" (by decide) (by decide) (by decide)

/-! ### C4: the document-table flattening -/

theorem dictLookup_mapApp_self (r : List (String × String)) (k v : String)
    (h : r.any (fun p => p.1 = k) = true) :
    dictLookup (r.map (fun p => if p.1 = k then (k, p.2 ++ "\n" ++ v) else p)) k
      = (dictLookup r k).map (fun o => o ++ "\n" ++ v) := by
  induction r with
  | nil => simp at h
  | cons p t ih =>
    by_cases hp : p.1 = k
    · simp [hp, dictLookup_cons]
    · simp only [List.any_cons, hp, Bool.or_eq_true] at h
      rcases h with h | h
      · simp [hp] at h
      · simp only [List.map_cons, if_neg hp, dictLookup_cons, if_neg hp]
        exact ih h

theorem dictLookup_mapApp_other (r : List (String × String)) (k v x : String)
    (hx : x ≠ k) :
    dictLookup (r.map (fun p => if p.1 = k then (k, p.2 ++ "\n" ++ v) else p)) x
      = dictLookup r x := by
  induction r with
  | nil => rfl
  | cons p t ih =>
    by_cases hp : p.1 = k
    · simp [hp, dictLookup_cons, Ne.symm hx, ih]
    · simp [hp, dictLookup_cons, ih]

theorem dictLookup_dictAppendNL (r : List (String × String)) (k v x : String) :
    dictLookup (dictAppendNL r k v) x =
      if x = k then
        match dictLookup r k with
        | some o => some (o ++ "\n" ++ v)
        | none => some v
      else dictLookup r x := by
  unfold dictAppendNL
  by_cases hany : r.any (fun p => p.1 = k) = true
  · rw [if_pos hany]
    by_cases hx : x = k
    · subst hx
      rw [if_pos rfl, dictLookup_mapApp_self r x v hany]
      obtain ⟨w, hw⟩ := dictLookup_some_of_mem_keys ((any_key_iff r x).mp hany)
      rw [hw]
      rfl
    · rw [if_neg hx, dictLookup_mapApp_other r k v x hx]
  · rw [if_neg hany, dictLookup_append]
    have hnone : dictLookup r k = none :=
      any_key_false_lookup r k (Bool.eq_false_iff.mpr hany)
    by_cases hx : x = k
    · subst hx
      rw [hnone, if_pos rfl]
      simp [dictLookup_cons]
    · rw [if_neg hx]
      cases hr : dictLookup r x with
      | some w => simp
      | none => simp [dictLookup_cons, dictLookup_nil, Ne.symm hx]

theorem keys_dictAppendNL (r : List (String × String)) (k v : String) :
    keys (dictAppendNL r k v) =
      if r.any (fun p => p.1 = k) then keys r else keys r ++ [k] := by
  unfold dictAppendNL keys
  by_cases hany : r.any (fun p => p.1 = k) = true
  · simp only [hany, if_true, List.map_map]
    congr 1
    funext p
    by_cases h : p.1 = k <;> simp [h]
  · simp only [Bool.not_eq_true] at hany
    simp [hany]

theorem nodup_keys_dictAppendNL {r : List (String × String)} (k v : String)
    (h : (keys r).Nodup) : (keys (dictAppendNL r k v)).Nodup := by
  rw [keys_dictAppendNL]
  by_cases hany : r.any (fun p => p.1 = k) = true
  · rw [if_pos hany]; exact h
  · rw [if_neg hany]
    rw [List.nodup_append]
    refine ⟨h, List.nodup_singleton k, ?_⟩
    intro x hx hk
    rcases List.mem_singleton.mp hk with rfl
    exact hany ((any_key_iff r x).mpr hx)

theorem nodup_keys_foldl_dictAppendNL :
    ∀ (entries : List (String × String)) (r : List (String × String)),
      (keys r).Nodup →
      (keys (entries.foldl (fun a p => dictAppendNL a p.1 p.2) r)).Nodup := by
  intro entries
  induction entries with
  | nil => intro r h; exact h
  | cons p t ih =>
    intro r h
    exact ih (dictAppendNL r p.1 p.2) (nodup_keys_dictAppendNL p.1 p.2 h)

theorem nodup_keys_combineCases (cases : List (List (String × String))) :
    (keys (combineCases cases)).Nodup := by
  unfold combineCases
  have gen : ∀ (cs : List (List (String × String))) (acc : List (String × String)),
      (keys acc).Nodup →
      (keys (cs.foldl (fun acc cd =>
        cd.foldl (fun a p => dictAppendNL a p.1 p.2) acc) acc)).Nodup := by
    intro cs
    induction cs with
    | nil => intro acc h; exact h
    | cons cd t ih =>
      intro acc h
      exact ih _ (nodup_keys_foldl_dictAppendNL cd acc h)
  exact gen cases [] (by simp [keys])

theorem foldl_dictAppendNL_lookup :
    ∀ (cf : List (String × String)) (r : List (String × String)) (x : String),
      (keys cf).Nodup →
      dictLookup (cf.foldl (fun a p => dictAppendNL a p.1 p.2) r) x
        = match dictLookup r x, dictLookup cf x with
          | some m, some c => some (m ++ "\n" ++ c)
          | some m, none => some m
          | none, some c => some c
          | none, none => none := by
  intro cf
  induction cf with
  | nil =>
    intro r x _
    show dictLookup r x = _
    rw [dictLookup_nil]
    cases dictLookup r x <;> rfl
  | cons p t ih =>
    intro r x hnd
    rw [keys, List.map_cons, List.nodup_cons] at hnd
    rw [List.foldl_cons, ih (dictAppendNL r p.1 p.2) x hnd.2,
      dictLookup_dictAppendNL, dictLookup_cons]
    by_cases hx : x = p.1
    · subst hx
      have htnone : dictLookup t p.1 = none :=
        dictLookup_none_of_not_mem_keys hnd.1
      rw [if_pos rfl, if_pos rfl, htnone]
      cases dictLookup r p.1 <;> rfl
    · rw [if_neg hx, if_neg (fun hh => hx hh.symm)]

/-- C4 counterexample: a metadata key that also occurs in a case table does
not keep its metadata value: the case value is newline-appended to it. -/
theorem C4_counterexample :
    dictLookup (extract_word_header [[["A", "m"]], [["A", "c"]]]) "A"
      = some ("m" ++ "\n" ++ "c")
    ∧ dictLookup (extract_word_header [[["A", "m"]], [["A", "c"]]]) "A"
      ≠ some "m" := by
  refine ⟨by decide, by decide⟩

/-- C4 (amended): in the header-shaped flattening, a key present in both the
metadata mapping and the accumulated case fields gets the metadata value
followed by a newline and the accumulated case value; a key present on only
one side keeps that side's value; case fields do fill keys absent from
metadata. -/
theorem C4_flatten_lookup (metadata : List (String × String))
    (cases : List (List (String × String))) (k : String)
    (hnd : (keys metadata).Nodup) :
    dictLookup (wordFlatten metadata cases []) k
      = match dictLookup metadata k, dictLookup (combineCases cases) k with
        | some m, some c => some (m ++ "\n" ++ c)
        | some m, none => some m
        | none, some c => some c
        | none, none => none := by
  unfold wordFlatten
  rw [if_neg (by simp)]
  exact foldl_dictAppendNL_lookup (combineCases cases) metadata k
    (nodup_keys_combineCases cases)

/-- C4 witness: the flattening characterization at a concrete document. -/
theorem C4_witness :
    dictLookup (wordFlatten [("A", "m")] [[("A", "c")]] []) "A"
      = match dictLookup [("A", "m")] "A",
              dictLookup (combineCases [[("A", "c")]]) "A" with
        | some m, some c => some (m ++ "\n" ++ c)
        | some m, none => some m
        | none, some c => some c
        | none, none => none :=
  C4_flatten_lookup [("A", "m")] [[("A", "c")]] "A" (by decide)

/-! ### C10: the forced Filename/FileType fields -/

theorem nodup_keys_dictSet {α : Type} {r : List (String × α)} (k : String) (v : α)
    (h : (keys r).Nodup) : (keys (dictSet r k v)).Nodup := by
  rw [keys_dictSet]
  by_cases hany : r.any (fun p => p.1 = k) = true
  · rw [if_pos hany]; exact h
  · rw [if_neg hany]
    rw [List.nodup_append]
    refine ⟨h, List.nodup_singleton k, ?_⟩
    intro x hx hk
    have hxk : x = k := List.mem_singleton.mp hk
    rw [hxk] at hx
    exact hany ((any_key_iff r k).mpr hx)

/-- C10: after lines 192-194 every record handed to the engine carries the
on-disk filename under "Filename" and the folder's format tag under
"FileType", whatever the extractor produced there; the alias table does map
"title" to "Filename", but that value is overwritten in place — the record
retains no other binding for "Filename", so the extractor's title never
reaches the comparison or the report passthrough. -/
theorem C10_buildRecord_overwrites :
    dictLookupD JAVA_KEY_MAP "title" "" = "Filename"
    ∧ ∀ (data : List (String × String)) (fname ftype : String),
        (keys data).Nodup →
        dictLookup (buildRecord data fname ftype) "Filename" = some fname
        ∧ dictLookup (buildRecord data fname ftype) "FileType" = some ftype
        ∧ (buildRecord data fname ftype).filter (fun p => p.1 = "Filename")
            = [("Filename", fname)] := by
  refine ⟨by decide, ?_⟩
  intro data fname ftype hnd
  have hnd2 : (keys (buildRecord data fname ftype)).Nodup :=
    nodup_keys_dictSet _ _ (nodup_keys_dictSet _ _ hnd)
  have h1 : dictLookup (buildRecord data fname ftype) "Filename" = some fname := by
    unfold buildRecord
    rw [dictLookup_dictSet, if_neg (by decide), dictLookup_dictSet, if_pos rfl]
  refine ⟨h1, ?_, ?_⟩
  · unfold buildRecord
    rw [dictLookup_dictSet, if_pos rfl]
  · rw [row_filter_lookup hnd2, h1]

/-- C10 witness: a record whose extractor output already had a "Filename"
(aliased from "title") still reaches the engine with the on-disk name. -/
theorem C10_witness :
    dictLookup (buildRecord [("Filename", "Title From Header"), ("ID", "9")]
        "disk.java" "Java") "Filename" = some "disk.java"
    ∧ dictLookup (buildRecord [("Filename", "Title From Header"), ("ID", "9")]
        "disk.java" "Java") "FileType" = some "Java"
    ∧ (buildRecord [("Filename", "Title From Header"), ("ID", "9")]
        "disk.java" "Java").filter (fun p => p.1 = "Filename")
        = [("Filename", "disk.java")] :=
  C10_buildRecord_overwrites.2 [("Filename", "Title From Header"), ("ID", "9")]
    "disk.java" "Java" (by decide)

/-! ### C2: unmatched records -/

theorem mem_keys_dictSet {α : Type} (r : List (String × α)) (k : String) (v : α)
    (x : String) : x ∈ keys (dictSet r k v) ↔ x = k ∨ x ∈ keys r := by
  rw [keys_dictSet]
  by_cases hany : r.any (fun p => p.1 = k) = true
  · rw [if_pos hany]
    constructor
    · exact Or.inr
    · rintro (rfl | hx)
      · exact (any_key_iff r x).mp hany
      · exact hx
  · rw [if_neg hany, List.mem_append, List.mem_singleton]
    exact Or.comm

theorem passthrough_preserves :
    ∀ (fd : List (String × String)) (e0 : List (String × Cell)) (x : String),
      x ∈ keys e0 →
      dictLookup (fd.foldl (fun e p =>
        if e.any (fun q => q.1 = p.1) then e else dictSet e p.1 (Cell.str p.2)) e0) x
        = dictLookup e0 x := by
  intro fd
  induction fd with
  | nil => intro e0 x _; rfl
  | cons p t ih =>
    intro e0 x hx
    rw [List.foldl_cons]
    by_cases hany : e0.any (fun q => q.1 = p.1) = true
    · rw [if_pos hany]; exact ih e0 x hx
    · rw [if_neg hany]
      have hne : x ≠ p.1 := by
        rintro rfl
        exact hany ((any_key_iff e0 p.1).mpr hx)
      have hmem : x ∈ keys (dictSet e0 p.1 (Cell.str p.2)) := by
        rw [keys_dictSet, if_neg hany]
        exact List.mem_append_left _ hx
      rw [ih (dictSet e0 p.1 (Cell.str p.2)) x hmem, dictLookup_dictSet, if_neg hne]

theorem processRecord_none {em : String → Option (List (String × String))}
    {fd : List (String × String)}
    (h : em (pyLower (pyStrip (dictLookupD fd "Filename" ""))) = none) :
    processRecord em fd = Except.ok (fd.foldl (fun e p =>
      if e.any (fun q => q.1 = p.1) then e else dictSet e p.1 (Cell.str p.2))
      (dictSet (dictSet (dictSet
        [("Filename", Cell.str (pyStrip (dictLookupD fd "Filename" ""))),
         ("FileType", Cell.str (dictLookupD fd "FileType" "")),
         ("Title Match %", Cell.num 0)]
        "Error" (Cell.str "filename missing in excel"))
        "Excel Remarks" (Cell.str ""))
        "File Remarks" (Cell.str ""))) := by
  simp only [processRecord, h]

/-- C2: an extracted record whose normalized filename has no ledger match
yields (without any field comparison) a row whose error is exactly
"filename missing in excel", whose Title Match % is exactly 0, and whose
Excel Remarks and File Remarks are both empty. -/
theorem C2_unmatched_record (em : String → Option (List (String × String)))
    (fd : List (String × String))
    (h : em (pyLower (pyStrip (dictLookupD fd "Filename" ""))) = none) :
    ∃ e, processRecord em fd = Except.ok e
      ∧ dictLookup e "Error" = some (Cell.str "filename missing in excel")
      ∧ dictLookup e "Title Match %" = some (Cell.num 0)
      ∧ dictLookup e "Excel Remarks" = some (Cell.str "")
      ∧ dictLookup e "File Remarks" = some (Cell.str "") := by
  rw [processRecord_none h]
  refine ⟨_, rfl, ?_, ?_, ?_, ?_⟩
  all_goals
    rw [passthrough_preserves _ _ _ (by
      simp only [mem_keys_dictSet]
      simp [keys])]
  all_goals
    simp [dictLookup_dictSet, dictLookup_cons]

/-- C2 witness: a concrete unmatched record. -/
theorem C2_witness :
    ∃ e, processRecord (fun _ => none) [("Filename", "extra.java"), ("FileType", "Java")]
        = Except.ok e
      ∧ dictLookup e "Error" = some (Cell.str "filename missing in excel")
      ∧ dictLookup e "Title Match %" = some (Cell.num 0)
      ∧ dictLookup e "Excel Remarks" = some (Cell.str "")
      ∧ dictLookup e "File Remarks" = some (Cell.str "") :=
  C2_unmatched_record (fun _ => none) [("Filename", "extra.java"), ("FileType", "Java")] rfl

/-! ### C3: residual "file not found" rows -/

theorem mapM_ok_length {α β : Type} (f : α → Except String β) :
    ∀ (l : List α) (bs : List β), l.mapM f = Except.ok bs → bs.length = l.length := by
  intro l
  induction l with
  | nil =>
    intro bs h
    simp only [List.mapM_nil, pure, Except.pure] at h
    cases h
    rfl
  | cons a t ih =>
    intro bs h
    rw [List.mapM_cons] at h
    cases hfa : f a with
    | error e =>
      rw [hfa] at h
      simp [Bind.bind, Except.bind] at h
    | ok b =>
      rw [hfa] at h
      cases hmt : t.mapM f with
      | error e =>
        rw [hmt] at h
        simp [Bind.bind, Except.bind] at h
      | ok bs' =>
        rw [hmt] at h
        simp only [Bind.bind, Except.bind, pure, Except.pure] at h
        cases h
        simp [ih bs' hmt]

/-- C3: whenever the run completes (no record raised), the result rows are
the per-record rows followed by exactly one residual row per merged ledger
row whose normalized filename was never seen on disk, in ledger order, each
residual row holding only the filename and the error "file not found". -/
theorem C3_residual_rows (dfRaw files : List (List (String × String)))
    (rows : List (List (String × Cell)))
    (h : mainResults dfRaw files = Except.ok rows) :
    ∃ fileRows,
      files.mapM (processRecord (excelMapGet (stripFilenameCol (mergeExcelRows dfRaw))))
        = Except.ok fileRows
      ∧ fileRows.length = files.length
      ∧ rows = fileRows ++
          ((stripFilenameCol (mergeExcelRows dfRaw)).filter (fun r =>
            ¬ (files.map fileKey).contains
              (pyLower (pyStrip (dictLookupD r "Filename" ""))))).map
            (fun r => [("Filename", Cell.str (dictLookupD r "Filename" "")),
                       ("Error", Cell.str "file not found")]) := by
  simp only [mainResults] at h
  cases hm : files.mapM
      (processRecord (excelMapGet (stripFilenameCol (mergeExcelRows dfRaw)))) with
  | error e => rw [hm] at h; cases h
  | ok fileRows =>
    rw [hm] at h
    cases h
    exact ⟨fileRows, rfl, mapM_ok_length _ files fileRows hm, rfl⟩

/-- C3 witness: a one-row ledger with no matching disk file yields exactly
the single residual row. -/
theorem C3_witness :
    ∃ fileRows,
      ([] : List (List (String × String))).mapM
          (processRecord (excelMapGet (stripFilenameCol
            (mergeExcelRows [[("Filename", "ghost.py")]]))))
        = Except.ok fileRows
      ∧ fileRows.length = ([] : List (List (String × String))).length
      ∧ [[("Filename", Cell.str "ghost.py"), ("Error", Cell.str "file not found")]]
        = fileRows ++
          ((stripFilenameCol (mergeExcelRows [[("Filename", "ghost.py")]])).filter
            (fun r => ¬ (([] : List (List (String × String))).map fileKey).contains
              (pyLower (pyStrip (dictLookupD r "Filename" ""))))).map
            (fun r => [("Filename", Cell.str (dictLookupD r "Filename" "")),
                       ("Error", Cell.str "file not found")]) :=
  C3_residual_rows [[("Filename", "ghost.py")]] []
    [[("Filename", Cell.str "ghost.py"), ("Error", Cell.str "file not found")]] (by rfl)

/-! ### C1: the matched-record comparison -/

/-- C1: a matched record never reaches the field comparison — the pandas
`Series` truthiness check at line 221 raises first.  Ledger: `report.py`
with `Excel_ID = 7`; disk: `report.py` extracted with `ID = 8`. -/
theorem C1_matched_record_raises :
    processRecord
      (fun s => if s = "report.py"
        then some [("Filename", "report.py"), ("Excel_ID", "7")] else none)
      [("ID", "8"), ("Filename", "report.py"), ("FileType", "Python")]
      = Except.error seriesBoolMsg := by
  rfl

/-! ### C7/C8: the similarity scorer

The extension loops are well-founded recursions; we use their unfolding
equations, then prove validity bounds of `find_longest_match` regions, the
global bound `matches ≤ min |a| |b|`, and that two equal sequences always
match completely (the second extension loop grows any best block along the
diagonal). -/

theorem extLow_of_pos {a b : List Char} {alo blo besti bestj bestsize : Nat}
    (h : alo < besti ∧ blo < bestj ∧
      a.getD (besti - 1) 'a' = b.getD (bestj - 1) 'a') :
    extLow a b alo blo besti bestj bestsize
      = extLow a b alo blo (besti - 1) (bestj - 1) (bestsize + 1) := by
  rw [extLow]
  exact dif_pos h

theorem extLow_of_neg {a b : List Char} {alo blo besti bestj bestsize : Nat}
    (h : ¬ (alo < besti ∧ blo < bestj ∧
      a.getD (besti - 1) 'a' = b.getD (bestj - 1) 'a')) :
    extLow a b alo blo besti bestj bestsize = (besti, bestj, bestsize) := by
  rw [extLow]
  exact dif_neg h

theorem extHigh_of_pos {a b : List Char} {ahi bhi besti bestj bestsize : Nat}
    (h : besti + bestsize < ahi ∧ bestj + bestsize < bhi ∧
      a.getD (besti + bestsize) 'a' = b.getD (bestj + bestsize) 'a') :
    extHigh a b ahi bhi besti bestj bestsize
      = extHigh a b ahi bhi besti bestj (bestsize + 1) := by
  rw [extHigh]
  exact dif_pos h

theorem extHigh_of_neg {a b : List Char} {ahi bhi besti bestj bestsize : Nat}
    (h : ¬ (besti + bestsize < ahi ∧ bestj + bestsize < bhi ∧
      a.getD (besti + bestsize) 'a' = b.getD (bestj + bestsize) 'a')) :
    extHigh a b ahi bhi besti bestj bestsize = bestsize := by
  rw [extHigh]
  exact dif_neg h

theorem extLow_valid (a b : List Char) (alo blo ahi bhi : Nat) :
    ∀ besti bestj bestsize, blockOk alo ahi blo bhi (besti, bestj, bestsize) →
      blockOk alo ahi blo bhi (extLow a b alo blo besti bestj bestsize) := by
  intro besti
  induction besti using Nat.strong_induction_on with
  | _ besti ih =>
    intro bestj bestsize hok
    by_cases h : alo < besti ∧ blo < bestj ∧
        a.getD (besti - 1) 'a' = b.getD (bestj - 1) 'a'
    · rw [extLow_of_pos h]
      apply ih (besti - 1) (by omega)
      unfold blockOk at hok ⊢
      simp only at hok ⊢
      omega
    · rw [extLow_of_neg h]
      exact hok

theorem extHigh_valid (a b : List Char) (ahi bhi : Nat) :
    ∀ (fuel besti bestj bestsize : Nat), ahi - (besti + bestsize) ≤ fuel →
      besti + bestsize ≤ ahi → bestj + bestsize ≤ bhi →
      besti + extHigh a b ahi bhi besti bestj bestsize ≤ ahi
      ∧ bestj + extHigh a b ahi bhi besti bestj bestsize ≤ bhi
      ∧ bestsize ≤ extHigh a b ahi bhi besti bestj bestsize := by
  intro fuel
  induction fuel with
  | zero =>
    intro besti bestj bestsize hf ha hb
    have : ¬ (besti + bestsize < ahi ∧ bestj + bestsize < bhi ∧
        a.getD (besti + bestsize) 'a' = b.getD (bestj + bestsize) 'a') := by
      intro hc
      omega
    rw [extHigh_of_neg this]
    omega
  | succ n ih =>
    intro besti bestj bestsize hf ha hb
    by_cases h : besti + bestsize < ahi ∧ bestj + bestsize < bhi ∧
        a.getD (besti + bestsize) 'a' = b.getD (bestj + bestsize) 'a'
    · rw [extHigh_of_pos h]
      have := ih besti bestj (bestsize + 1) (by omega) (by omega) (by omega)
      omega
    · rw [extHigh_of_neg h]
      omega

theorem rowStep_valid (a b : List Char) (alo ahi blo bhi i : Nat)
    (hi : alo ≤ i) (hin : i < ahi) (dPrev : Nat → Nat)
    (hdPrev : ∀ j, dPrev j ≤ i - alo ∧
      (dPrev j ≠ 0 → blo ≤ j ∧ j < bhi ∧ dPrev j ≤ j + 1 - blo)) :
    ∀ (js : List Nat) (dNew : Nat → Nat) (best : Nat × Nat × Nat),
      (∀ j, dNew j ≤ i + 1 - alo ∧
        (dNew j ≠ 0 → blo ≤ j ∧ j < bhi ∧ dNew j ≤ j + 1 - blo)) →
      blockOk alo ahi blo bhi best →
      (∀ j, (rowStep dPrev blo bhi i js dNew best).1 j ≤ i + 1 - alo ∧
        ((rowStep dPrev blo bhi i js dNew best).1 j ≠ 0 →
          blo ≤ j ∧ j < bhi ∧
          (rowStep dPrev blo bhi i js dNew best).1 j ≤ j + 1 - blo))
      ∧ blockOk alo ahi blo bhi (rowStep dPrev blo bhi i js dNew best).2 := by
  intro js
  induction js with
  | nil => intro dNew best hd hb; exact ⟨hd, hb⟩
  | cons j js ih =>
    intro dNew best hd hb
    rw [rowStep]
    by_cases h1 : j < blo
    · rw [if_pos h1]
      exact ih dNew best hd hb
    · rw [if_neg h1]
      by_cases h2 : bhi ≤ j
      · rw [if_pos h2]
        exact ⟨hd, hb⟩
      · rw [if_neg h2]
        have hk : ((if j = 0 then 0 else dPrev (j - 1)) + 1) ≤ i + 1 - alo
            ∧ ((if j = 0 then 0 else dPrev (j - 1)) + 1) ≤ j + 1 - blo := by
          by_cases hj : j = 0
          · rw [if_pos hj]
            subst hj
            omega
          · rw [if_neg hj]
            have h3 := (hdPrev (j - 1)).1
            have h4 := (hdPrev (j - 1)).2
            by_cases h5 : dPrev (j - 1) = 0
            · rw [h5]; omega
            · have := h4 h5
              omega
        apply ih
        · intro j'
          by_cases hj' : j' = j
          · subst hj'
            unfold dUpd
            rw [if_pos rfl]
            exact ⟨hk.1, fun _ => ⟨by omega, by omega, hk.2⟩⟩
          · unfold dUpd
            rw [if_neg hj']
            exact hd j'
        · by_cases hup : best.2.2 < (if j = 0 then 0 else dPrev (j - 1)) + 1
          · rw [if_pos hup]
            unfold blockOk
            simp only
            omega
          · rw [if_neg hup]
            exact hb

theorem rowsLoop_valid (a b : List Char) (b2j : Char → List Nat)
    (alo ahi blo bhi : Nat) :
    ∀ (m i : Nat) (d : Nat → Nat) (best : Nat × Nat × Nat),
      alo ≤ i → i + m ≤ ahi →
      (∀ j, d j ≤ i - alo ∧ (d j ≠ 0 → blo ≤ j ∧ j < bhi ∧ d j ≤ j + 1 - blo)) →
      blockOk alo ahi blo bhi best →
      blockOk alo ahi blo bhi
        (rowsLoop a b2j blo bhi (List.range' i m) d best).2 := by
  intro m
  induction m with
  | zero =>
    intro i d best _ _ _ hb
    exact hb
  | succ n ih =>
    intro i d best hi hin hd hb
    rw [List.range'_succ, rowsLoop]
    have hstep := rowStep_valid a b alo ahi blo bhi i hi (by omega) d hd
      (b2j (a.getD i 'a')) (fun _ => 0) best
      (fun j => ⟨Nat.zero_le _, fun hc => absurd rfl hc⟩) hb
    exact ih (i + 1) _ _ (by omega) (by omega) hstep.1 hstep.2

/-- `find_longest_match` returns a block inside its region. -/
theorem findLongestMatch_valid (a b : List Char) (b2j : Char → List Nat)
    (alo ahi blo bhi : Nat) (hab : alo ≤ ahi) (hbb : blo ≤ bhi) :
    blockOk alo ahi blo bhi (findLongestMatch a b b2j alo ahi blo bhi) := by
  unfold findLongestMatch
  have hrows := rowsLoop_valid a b b2j alo ahi blo bhi (ahi - alo) alo
    (fun _ => 0) (alo, blo, 0) (le_refl _) (by omega)
    (fun j => ⟨Nat.zero_le _, fun hc => absurd rfl hc⟩)
    ⟨le_refl _, le_refl _, by simpa using hab, by simpa using hbb⟩
  obtain ⟨h1, h2, h3, h4⟩ := hrows
  have hlow := extLow_valid a b alo blo ahi bhi _ _ _ ⟨h1, h2, h3, h4⟩
  obtain ⟨g1, g2, g3, g4⟩ := hlow
  have hhigh := extHigh_valid a b ahi bhi (ahi + 1) _ _ _ (by omega) g3 g4
  exact ⟨g1, g2, hhigh.1, hhigh.2.1⟩

/-- The total size of the matching blocks never exceeds either side. -/
theorem blocksTotal_le (a b : List Char) (b2j : Char → List Nat) :
    ∀ (fuel alo ahi blo bhi : Nat), alo ≤ ahi → blo ≤ bhi →
      blocksTotal a b b2j fuel alo ahi blo bhi ≤ min (ahi - alo) (bhi - blo) := by
  intro fuel
  induction fuel with
  | zero => intro alo ahi blo bhi _ _; simp [blocksTotal]
  | succ n ih =>
    intro alo ahi blo bhi hab hbb
    rw [blocksTotal]
    by_cases hz : (findLongestMatch a b b2j alo ahi blo bhi).2.2 = 0
    · rw [if_pos hz]; omega
    · rw [if_neg hz]
      obtain ⟨h1, h2, h3, h4⟩ := findLongestMatch_valid a b b2j alo ahi blo bhi hab hbb
      have hleft := ih alo (findLongestMatch a b b2j alo ahi blo bhi).1
        blo (findLongestMatch a b b2j alo ahi blo bhi).2.1 h1 h2
      have hright := ih
        ((findLongestMatch a b b2j alo ahi blo bhi).1
          + (findLongestMatch a b b2j alo ahi blo bhi).2.2) ahi
        ((findLongestMatch a b b2j alo ahi blo bhi).2.1
          + (findLongestMatch a b b2j alo ahi blo bhi).2.2) bhi h3 h4
      omega

theorem smMatches_le (a b : List Char) :
    smMatches a b ≤ min a.length b.length := by
  have := blocksTotal_le a b (b2jFun b) (a.length + 1) 0 a.length 0 b.length
    (by omega) (by omega)
  simpa [smMatches] using this

/-! ### Equal sequences match completely -/

theorem jfRun_le (s : List Char) : ∀ j, jfRun s j ≤ j + 1 := by
  intro j
  induction j with
  | zero =>
    rw [jfRun]
    by_cases h : (b2jFun s (s.getD 0 'a')).isEmpty = true
    · rw [if_pos h]; omega
    · rw [if_neg h]
  | succ m ih =>
    rw [jfRun]
    by_cases h : (b2jFun s (s.getD (m + 1) 'a')).isEmpty = true
    · rw [if_pos h]; omega
    · rw [if_neg h]; omega

theorem jfRun_of_nj {s : List Char} {i : Nat}
    (h : (b2jFun s (s.getD i 'a')).isEmpty = false) :
    jfRun s i = jfP s i + 1 := by
  cases i with
  | zero => rw [jfRun, if_neg (by rw [h]; decide), jfP]
  | succ m => rw [jfRun, if_neg (by rw [h]; decide), jfP]

theorem jfRun_of_junk {s : List Char} {i : Nat}
    (h : (b2jFun s (s.getD i 'a')).isEmpty = true) :
    jfRun s i = 0 := by
  cases i with
  | zero => rw [jfRun, if_pos h]
  | succ m => rw [jfRun, if_pos h]

theorem mem_b2jFun {s : List Char} {c : Char} {j : Nat}
    (h : j ∈ b2jFun s c) :
    s.getD j 'a' = c ∧ j < s.length
    ∧ (b2jFun s (s.getD j 'a')).isEmpty = false := by
  unfold b2jFun at h
  by_cases hpop : 200 ≤ s.length ∧ s.length / 100 + 1 <
      ((List.range s.length).filter (fun j => s.getD j 'a' = c)).length
  · rw [if_pos hpop] at h
    simp at h
  · rw [if_neg hpop] at h
    have h1 := List.mem_filter.mp h
    have hj : j < s.length := List.mem_range.mp h1.1
    have hc : s.getD j 'a' = c := by simpa using h1.2
    refine ⟨hc, hj, ?_⟩
    rw [hc]
    have hbe : b2jFun s c
        = (List.range s.length).filter (fun j => s.getD j 'a' = c) := by
      unfold b2jFun
      rw [if_neg hpop]
    rw [hbe]
    cases hfe : (List.range s.length).filter (fun j => s.getD j 'a' = c) with
    | nil => rw [hfe] at h; simp at h
    | cons x xs => rfl

theorem self_mem_b2jFun {s : List Char} {i : Nat} (hi : i < s.length)
    (hne : (b2jFun s (s.getD i 'a')).isEmpty = false) :
    i ∈ b2jFun s (s.getD i 'a') := by
  unfold b2jFun at hne ⊢
  by_cases hpop : 200 ≤ s.length ∧ s.length / 100 + 1 <
      ((List.range s.length).filter (fun j =>
        s.getD j 'a' = s.getD i 'a')).length
  · rw [if_pos hpop] at hne
    simp at hne
  · rw [if_neg hpop]
    exact List.mem_filter.mpr ⟨List.mem_range.mpr hi, by simp⟩

theorem b2jFun_pairwise (s : List Char) (c : Char) :
    (b2jFun s c).Pairwise (· < ·) := by
  unfold b2jFun
  by_cases hpop : 200 ≤ s.length ∧ s.length / 100 + 1 <
      ((List.range s.length).filter (fun j => s.getD j 'a' = c)).length
  · rw [if_pos hpop]
    exact List.Pairwise.nil
  · rw [if_neg hpop]
    exact (List.pairwise_lt_range s.length).sublist (List.filter_sublist _)

theorem rowStep_cons (dPrev : Nat → Nat) (bhi i j : Nat) (js : List Nat)
    (dNew : Nat → Nat) (best : Nat × Nat × Nat) (hj : j < bhi) :
    rowStep dPrev 0 bhi i (j :: js) dNew best
      = rowStep dPrev 0 bhi i js
          (dUpd dNew j ((if j = 0 then 0 else dPrev (j - 1)) + 1))
          (if best.2.2 < (if j = 0 then 0 else dPrev (j - 1)) + 1
            then (i + 1 - ((if j = 0 then 0 else dPrev (j - 1)) + 1),
                  j + 1 - ((if j = 0 then 0 else dPrev (j - 1)) + 1),
                  (if j = 0 then 0 else dPrev (j - 1)) + 1)
            else best) := by
  rw [rowStep, if_neg (Nat.not_lt_zero j), if_neg (by omega)]

/-- One row of the dynamic-programming loop on two equal sequences keeps the
best block on the diagonal and records the full junk-free run at the
diagonal cell. -/
theorem rowStep_diag (s : List Char) (i : Nat) (dPrev : Nat → Nat)
    (hi : i < s.length)
    (hnj : (b2jFun s (s.getD i 'a')).isEmpty = false)
    (hd1 : ∀ j, dPrev j ≤ jfP s i)
    (hd2 : ∀ j, dPrev j ≤ jfRun s j)
    (hd3 : 1 ≤ i → jfP s i ≤ dPrev (i - 1)) :
    ∀ (js : List Nat) (dNew : Nat → Nat) (best : Nat × Nat × Nat),
      (∀ j ∈ js, j ∈ b2jFun s (s.getD i 'a')) →
      js.Pairwise (· < ·) →
      (∀ j, dNew j ≤ jfRun s i ∧ dNew j ≤ jfRun s j) →
      best.1 = best.2.1 → best.1 + best.2.2 ≤ i + 1 →
      ((i ∈ js ∧ (∀ j' < i, jfRun s j' ≤ best.2.2))
        ∨ (¬ i ∈ js ∧ dNew i = jfRun s i ∧ (∀ j ∈ js, i < j)
            ∧ (∀ j' ≤ i, jfRun s j' ≤ best.2.2))) →
      (∀ j, (rowStep dPrev 0 s.length i js dNew best).1 j ≤ jfRun s i
        ∧ (rowStep dPrev 0 s.length i js dNew best).1 j ≤ jfRun s j)
      ∧ (rowStep dPrev 0 s.length i js dNew best).1 i = jfRun s i
      ∧ (rowStep dPrev 0 s.length i js dNew best).2.1
          = (rowStep dPrev 0 s.length i js dNew best).2.2.1
      ∧ (rowStep dPrev 0 s.length i js dNew best).2.1
          + (rowStep dPrev 0 s.length i js dNew best).2.2.2 ≤ i + 1
      ∧ (∀ j' ≤ i, jfRun s j'
          ≤ (rowStep dPrev 0 s.length i js dNew best).2.2.2) := by
  intro js
  induction js with
  | nil =>
    intro dNew best hjs hpw hdn hdiag hsum hphase
    rcases hphase with ⟨hmem, _⟩ | ⟨_, hdi, _, hball⟩
    · simp at hmem
    · exact ⟨hdn, hdi, hdiag, hsum, hball⟩
  | cons j js ih =>
    intro dNew best hjs hpw hdn hdiag hsum hphase
    have hjmem := hjs j (List.mem_cons_self j js)
    obtain ⟨hjc, hjlen, hjnj⟩ := mem_b2jFun hjmem
    rw [rowStep_cons dPrev s.length i j js dNew best (by omega)]
    have hk1 : (if j = 0 then 0 else dPrev (j - 1)) + 1 ≤ jfRun s i := by
      rw [jfRun_of_nj hnj]
      by_cases hj0 : j = 0
      · rw [if_pos hj0]; omega
      · rw [if_neg hj0]
        have := hd1 (j - 1)
        omega
    have hjnj' : (b2jFun s (s.getD j 'a')).isEmpty = false := by
      rw [hjc]; exact hnj
    have hk2 : (if j = 0 then 0 else dPrev (j - 1)) + 1 ≤ jfRun s j := by
      rw [jfRun_of_nj hjnj']
      by_cases hj0 : j = 0
      · rw [if_pos hj0]
        subst hj0
        simp [jfP]
      · rw [if_neg hj0]
        have h5 := hd2 (j - 1)
        have h6 : jfP s j = jfRun s (j - 1) := by
          cases j with
          | zero => exact absurd rfl hj0
          | succ m => simp [jfP]
        omega
    have hdn' : ∀ j', dUpd dNew j ((if j = 0 then 0 else dPrev (j - 1)) + 1) j'
        ≤ jfRun s i
        ∧ dUpd dNew j ((if j = 0 then 0 else dPrev (j - 1)) + 1) j'
        ≤ jfRun s j' := by
      intro j'
      unfold dUpd
      by_cases hj' : j' = j
      · subst hj'
        rw [if_pos rfl]
        exact ⟨hk1, hk2⟩
      · rw [if_neg hj']
        exact hdn j'
    by_cases hji : j = i
    · subst hji
      rcases hphase with ⟨_, hlt⟩ | ⟨hnmem, _, _, _⟩
      · have hkex : (if j = 0 then 0 else dPrev (j - 1)) + 1 = jfRun s j := by
          rw [jfRun_of_nj hnj]
          by_cases hj0 : j = 0
          · rw [if_pos hj0]
            subst hj0
            simp [jfP]
          · rw [if_neg hj0]
            have h7 := hd3 (by omega)
            have h8 := hd1 (j - 1)
            omega
        have hjsnotmem : ¬ j ∈ js := by
          intro hc
          have := List.rel_of_pairwise_cons hpw hc
          omega
        by_cases hup : best.2.2 < (if j = 0 then 0 else dPrev (j - 1)) + 1
        · rw [if_pos hup]
          apply ih
          · exact fun x hx => hjs x (List.mem_cons_of_mem _ hx)
          · exact hpw.of_cons
          · exact hdn'
          · rfl
          · simp only
            have := jfRun_le s j
            omega
          · right
            refine ⟨hjsnotmem, ?_, ?_, ?_⟩
            · unfold dUpd
              rw [if_pos rfl, hkex]
            · exact fun x hx => List.rel_of_pairwise_cons hpw hx
            · intro j' hj'
              simp only
              rcases Nat.lt_or_ge j' j with h | h
              · have := hlt j' h
                omega
              · have : j' = j := by omega
                rw [this, ← hkex]
        · rw [if_neg hup]
          apply ih
          · exact fun x hx => hjs x (List.mem_cons_of_mem _ hx)
          · exact hpw.of_cons
          · exact hdn'
          · exact hdiag
          · exact hsum
          · right
            refine ⟨hjsnotmem, ?_, ?_, ?_⟩
            · unfold dUpd
              rw [if_pos rfl, hkex]
            · exact fun x hx => List.rel_of_pairwise_cons hpw hx
            · intro j' hj'
              rcases Nat.lt_or_ge j' j with h | h
              · exact hlt j' h
              · have hj'j : j' = j := by omega
                rw [hj'j, ← hkex]
                omega
      · exact absurd (List.mem_cons_self j js) hnmem
    · rcases hphase with ⟨hmem, hlt⟩ | ⟨hnmem, hdi, hgt, hball⟩
      · have hmem' : i ∈ js := by
          rcases List.mem_cons.mp hmem with h | h
          · exact absurd h.symm hji
          · exact h
        have hjlti : j < i := List.rel_of_pairwise_cons hpw hmem'
        have hnup : ¬ best.2.2 < (if j = 0 then 0 else dPrev (j - 1)) + 1 := by
          have := hlt j hjlti
          omega
        rw [if_neg hnup]
        apply ih
        · exact fun x hx => hjs x (List.mem_cons_of_mem _ hx)
        · exact hpw.of_cons
        · exact hdn'
        · exact hdiag
        · exact hsum
        · left
          exact ⟨hmem', hlt⟩
      · have hilt : i < j := hgt j (List.mem_cons_self j js)
        have hnup : ¬ best.2.2 < (if j = 0 then 0 else dPrev (j - 1)) + 1 := by
          have := hball i (le_refl i)
          omega
        rw [if_neg hnup]
        apply ih
        · exact fun x hx => hjs x (List.mem_cons_of_mem _ hx)
        · exact hpw.of_cons
        · exact hdn'
        · exact hdiag
        · exact hsum
        · right
          refine ⟨?_, ?_, ?_, hball⟩
          · intro hc
            have := hgt i (List.mem_cons_of_mem _ hc)
            omega
          · unfold dUpd
            rw [if_neg (fun h => hji h.symm)]
            exact hdi
          · exact fun x hx => hgt x (List.mem_cons_of_mem _ hx)

/-- The outer loop on two equal sequences: the best block stays on the
diagonal and fits in the sequence. -/
theorem rowsLoop_diag (s : List Char) :
    ∀ (m i : Nat) (d : Nat → Nat) (best : Nat × Nat × Nat),
      i + m = s.length →
      (∀ j, d j ≤ jfP s i ∧ d j ≤ jfRun s j) →
      (1 ≤ i → jfP s i ≤ d (i - 1)) →
      best.1 = best.2.1 → best.1 + best.2.2 ≤ i →
      (∀ j' < i, jfRun s j' ≤ best.2.2) →
      (rowsLoop s (b2jFun s) 0 s.length (List.range' i m) d best).2.1
        = (rowsLoop s (b2jFun s) 0 s.length (List.range' i m) d best).2.2.1
      ∧ (rowsLoop s (b2jFun s) 0 s.length (List.range' i m) d best).2.1
          + (rowsLoop s (b2jFun s) 0 s.length (List.range' i m) d best).2.2.2
          ≤ s.length := by
  intro m
  induction m with
  | zero =>
    intro i d best hin hA hB hC hD hE
    have hr : rowsLoop s (b2jFun s) 0 s.length (List.range' i 0) d best
        = (d, best) := rfl
    rw [hr]
    show best.1 = best.2.1 ∧ best.1 + best.2.2 ≤ s.length
    exact ⟨hC, by omega⟩
  | succ n ih =>
    intro i d best hin hA hB hC hD hE
    rw [List.range'_succ, rowsLoop]
    by_cases hj : (b2jFun s (s.getD i 'a')).isEmpty = true
    · have hjs : b2jFun s (s.getD i 'a') = [] := by
        cases hb : b2jFun s (s.getD i 'a') with
        | nil => rfl
        | cons x xs => rw [hb] at hj; simp at hj
      rw [hjs]
      exact ih (i + 1) (fun _ => 0) best (by omega)
        (fun j => ⟨Nat.zero_le _, Nat.zero_le _⟩)
        (fun _ => by rw [jfP, jfRun_of_junk hj])
        hC (by omega)
        (fun j' hj2 => by
          rcases Nat.lt_or_ge j' i with h | h
          · exact hE j' h
          · have hji : j' = i := by omega
            rw [hji, jfRun_of_junk hj]
            exact Nat.zero_le _)
    · have hj' : (b2jFun s (s.getD i 'a')).isEmpty = false := by
        cases hbe : (b2jFun s (s.getD i 'a')).isEmpty
        · rfl
        · exact absurd hbe hj
      have hilen : i < s.length := by omega
      obtain ⟨g1, g2, g3, g4, g5⟩ := rowStep_diag s i d hilen hj'
        (fun j => (hA j).1) (fun j => (hA j).2) hB
        (b2jFun s (s.getD i 'a')) (fun _ => 0) best
        (fun x hx => hx) (b2jFun_pairwise s _)
        (fun j => ⟨Nat.zero_le _, Nat.zero_le _⟩) hC (by omega)
        (Or.inl ⟨self_mem_b2jFun hilen hj', hE⟩)
      exact ih (i + 1) _ _ (by omega)
        (fun j => ⟨by rw [jfP]; exact (g1 j).1, (g1 j).2⟩)
        (fun _ => by
          simp only [Nat.add_sub_cancel]
          rw [jfP]
          exact le_of_eq g2.symm)
        g3 g4
        (fun j' hj2 => by
          rcases Nat.lt_or_ge j' i with h | h
          · exact g5 j' (by omega)
          · have hji : j' = i := by omega
            rw [hji]
            exact g5 i (le_refl i))

/-- The downward extension loop on equal sequences descends all the way to
the start of the diagonal. -/
theorem extLow_diag (s : List Char) :
    ∀ bi bs, extLow s s 0 0 bi bi bs = (0, 0, bs + bi) := by
  intro bi
  induction bi with
  | zero =>
    intro bs
    rw [extLow_of_neg (fun h => absurd h.1 (Nat.lt_irrefl 0))]
    rfl
  | succ m ih =>
    intro bs
    rw [extLow_of_pos ⟨Nat.succ_pos m, Nat.succ_pos m, rfl⟩]
    have hm : m + 1 - 1 = m := Nat.succ_sub_one m
    rw [hm, ih (bs + 1)]
    have h : bs + 1 + m = bs + (m + 1) := by omega
    rw [h]

/-- The upward extension loop on equal sequences climbs to the end of the
diagonal. -/
theorem extHigh_diag (s : List Char) :
    ∀ m bs, bs + m = s.length →
      extHigh s s s.length s.length 0 0 bs = s.length := by
  intro m
  induction m with
  | zero =>
    intro bs h
    rw [extHigh_of_neg (fun hc => absurd hc.1 (by omega))]
    omega
  | succ k ih =>
    intro bs h
    rw [extHigh_of_pos ⟨by omega, by omega, rfl⟩]
    exact ih (bs + 1) (by omega)

theorem flm_diag_aux (s : List Char) (bi bj bs : Nat)
    (h1 : bi = bj) (h2 : bi + bs ≤ s.length) :
    ((extLow s s 0 0 bi bj bs).1, (extLow s s 0 0 bi bj bs).2.1,
      extHigh s s s.length s.length (extLow s s 0 0 bi bj bs).1
        (extLow s s 0 0 bi bj bs).2.1 (extLow s s 0 0 bi bj bs).2.2)
      = (0, 0, s.length) := by
  subst h1
  rw [extLow_diag s bi bs]
  show (0, 0, extHigh s s s.length s.length 0 0 (bs + bi)) = (0, 0, s.length)
  rw [extHigh_diag s (s.length - (bs + bi)) (bs + bi) (by omega)]

/-- `find_longest_match` on two copies of the same sequence returns the whole
diagonal, junk or no junk. -/
theorem flm_diag (s : List Char) :
    findLongestMatch s s (b2jFun s) 0 s.length 0 s.length
      = (0, 0, s.length) := by
  obtain ⟨h1, h2⟩ := rowsLoop_diag s s.length 0 (fun _ => 0) (0, 0, 0)
    (by omega) (fun j => ⟨Nat.zero_le _, Nat.zero_le _⟩)
    (fun h => absurd h (Nat.not_succ_le_zero 0)) rfl (Nat.le_refl 0)
    (fun j' hj' => absurd hj' (Nat.not_lt_zero j'))
  exact flm_diag_aux s _ _ _ h1 h2

/-- `find_longest_match` on an empty left region finds nothing. -/
theorem flm_empty (a b : List Char) (b2j : Char → List Nat)
    (alo blo bhi : Nat) :
    findLongestMatch a b b2j alo alo blo bhi = (alo, blo, 0) := by
  have h0 : alo - alo = 0 := Nat.sub_self alo
  have h1 : findLongestMatch a b b2j alo alo blo bhi
      = ((extLow a b alo blo alo blo 0).1, (extLow a b alo blo alo blo 0).2.1,
         extHigh a b alo bhi (extLow a b alo blo alo blo 0).1
           (extLow a b alo blo alo blo 0).2.1
           (extLow a b alo blo alo blo 0).2.2) := by
    unfold findLongestMatch
    rw [h0]
    rfl
  rw [h1, extLow_of_neg (fun h => absurd h.1 (Nat.lt_irrefl alo))]
  show (alo, blo, extHigh a b alo bhi alo blo 0) = (alo, blo, 0)
  rw [extHigh_of_neg (fun h => absurd h.1 (by omega))]

/-- `blocksTotal` on a degenerate (empty) left region is zero. -/
theorem blocksTotal_degenerate (a b : List Char) (b2j : Char → List Nat) :
    ∀ fuel alo blo bhi, blocksTotal a b b2j fuel alo alo blo bhi = 0 := by
  intro fuel alo blo bhi
  cases fuel with
  | zero => rfl
  | succ n =>
    rw [blocksTotal, flm_empty a b b2j alo blo bhi]
    rfl

/-- A sequence matches itself completely. -/
theorem smMatches_self (s : List Char) : smMatches s s = s.length := by
  unfold smMatches
  rw [blocksTotal, flm_diag s]
  show (if s.length = 0 then 0
        else blocksTotal s s (b2jFun s) s.length 0 0 0 0 + s.length
          + blocksTotal s s (b2jFun s) s.length (0 + s.length) s.length
              (0 + s.length) s.length) = s.length
  by_cases h : s.length = 0
  · rw [if_pos h, h]
  · rw [if_neg h]
    have e1 : 0 + s.length = s.length := Nat.zero_add _
    rw [e1, blocksTotal_degenerate, blocksTotal_degenerate]
    omega

/-! ### Ratio and rounding bounds -/

theorem pyRatio_nonneg (a b : List Char) : 0 ≤ pyRatio a b := by
  unfold pyRatio
  split_ifs with h
  · norm_num
  · apply div_nonneg
    · positivity
    · positivity

theorem pyRatio_le_one (a b : List Char) : pyRatio a b ≤ 1 := by
  unfold pyRatio
  split_ifs with h
  · exact le_refl 1
  · have hpos : (0:ℚ) < (a.length : ℚ) + (b.length : ℚ) := by
      rw [← Nat.cast_add]
      exact_mod_cast Nat.pos_of_ne_zero h
    rw [div_le_one hpos]
    have hm := smMatches_le a b
    have h2 : 2 * smMatches a b ≤ a.length + b.length := by omega
    calc 2 * (smMatches a b : ℚ) = ((2 * smMatches a b : ℕ) : ℚ) := by
          push_cast
          ring
      _ ≤ ((a.length + b.length : ℕ) : ℚ) := by exact_mod_cast h2
      _ = (a.length : ℚ) + (b.length : ℚ) := by push_cast; ring

theorem pyRatio_self (s : List Char) : pyRatio s s = 1 := by
  unfold pyRatio
  by_cases h : s.length + s.length = 0
  · rw [if_pos h]
  · rw [if_neg h, smMatches_self]
    have hq : ((s.length : ℚ) + (s.length : ℚ)) ≠ 0 := by
      rw [← Nat.cast_add]
      exact Nat.cast_ne_zero.mpr h
    field_simp
    ring

theorem roundHalfEven_intCast (z : ℤ) : roundHalfEven ((z : ℚ)) = z := by
  unfold roundHalfEven
  rw [Int.fract_intCast, if_pos (by norm_num), Int.floor_intCast]

theorem roundHalfEven_bounds {x : ℚ} {n : ℤ} (h0 : 0 ≤ x) (h1 : x ≤ (n : ℚ)) :
    0 ≤ roundHalfEven x ∧ roundHalfEven x ≤ n := by
  have hf0 : 0 ≤ ⌊x⌋ := Int.floor_nonneg.mpr h0
  have hfu : ⌊x⌋ ≤ n := by
    have h2 : (⌊x⌋ : ℚ) ≤ (n : ℚ) := le_trans (Int.floor_le x) h1
    exact_mod_cast h2
  have hfr : ¬ Int.fract x < 1 / 2 → ⌊x⌋ + 1 ≤ n := by
    intro ha
    have hp : 0 < Int.fract x :=
      lt_of_lt_of_le (by norm_num) (not_lt.mp ha)
    have hlt : (⌊x⌋ : ℚ) < x := by
      have hsum := Int.floor_add_fract x
      linarith
    have h3 : (⌊x⌋ : ℚ) < (n : ℚ) := lt_of_lt_of_le hlt h1
    have h4 : ⌊x⌋ < n := by exact_mod_cast h3
    omega
  unfold roundHalfEven
  split_ifs with ha hb hc
  · exact ⟨hf0, hfu⟩
  · exact ⟨by omega, hfr ha⟩
  · exact ⟨hf0, hfu⟩
  · exact ⟨by omega, hfr ha⟩

/-! ### `similar` on concrete degenerate inputs -/

theorem similar_empty_empty : similar "" "" = 100 := by
  have h1 : pyRatio (pyLower "").data (pyLower "").data = 1 := rfl
  unfold similar
  rw [h1]
  unfold pyRound2
  rw [show ((1:ℚ) * 100 * 100) = (((10000 : ℤ)) : ℚ) by norm_num,
    roundHalfEven_intCast]
  norm_num

theorem smMatches_nil_left (b : List Char) : smMatches [] b = 0 := by
  unfold smMatches
  show blocksTotal [] b (b2jFun b) (0 + 1) 0 0 0 b.length = 0
  rw [blocksTotal, flm_empty [] b (b2jFun b) 0 0 b.length]
  rfl

theorem b2jFun_nil (c : Char) : b2jFun [] c = [] := rfl

theorem rowsLoop_nil_b2j (a : List Char) (blo bhi : Nat) :
    ∀ (is : List Nat) (d : Nat → Nat) (best : Nat × Nat × Nat),
      (rowsLoop a (b2jFun []) blo bhi is d best).2 = best := by
  intro is
  induction is with
  | nil => intro d best; rfl
  | cons i is ih =>
    intro d best
    rw [rowsLoop, b2jFun_nil]
    exact ih _ _

theorem flm_nil_aux (a : List Char) (t : (Nat → Nat) × (Nat × Nat × Nat))
    (ht : t.2 = (0, 0, 0)) :
    ((extLow a [] 0 0 t.2.1 t.2.2.1 t.2.2.2).1,
     (extLow a [] 0 0 t.2.1 t.2.2.1 t.2.2.2).2.1,
     extHigh a [] a.length 0 (extLow a [] 0 0 t.2.1 t.2.2.1 t.2.2.2).1
       (extLow a [] 0 0 t.2.1 t.2.2.1 t.2.2.2).2.1
       (extLow a [] 0 0 t.2.1 t.2.2.1 t.2.2.2).2.2)
    = (0, 0, 0) := by
  rw [ht]
  show ((extLow a [] 0 0 0 0 0).1, (extLow a [] 0 0 0 0 0).2.1,
    extHigh a [] a.length 0 (extLow a [] 0 0 0 0 0).1
      (extLow a [] 0 0 0 0 0).2.1 (extLow a [] 0 0 0 0 0).2.2) = (0, 0, 0)
  rw [extLow_of_neg (fun h => absurd h.1 (Nat.lt_irrefl 0))]
  show (0, 0, extHigh a [] a.length 0 0 0 0) = (0, 0, 0)
  rw [extHigh_of_neg (fun h => absurd h.2.1 (Nat.lt_irrefl 0))]

theorem flm_nil_right (a : List Char) :
    findLongestMatch a [] (b2jFun []) 0 a.length 0 0 = (0, 0, 0) :=
  flm_nil_aux a _
    (rowsLoop_nil_b2j a 0 0 (List.range' 0 (a.length - 0)) (fun _ => 0)
      (0, 0, 0))

theorem smMatches_nil_right (a : List Char) : smMatches a [] = 0 := by
  unfold smMatches
  show blocksTotal a [] (b2jFun []) (a.length + 1) 0 a.length 0 0 = 0
  rw [blocksTotal, flm_nil_right]
  rfl

theorem pyRatio_nil_left {b : List Char} (h : b.length ≠ 0) :
    pyRatio [] b = 0 := by
  unfold pyRatio
  rw [if_neg (by simp only [List.length_nil, Nat.zero_add]; exact h),
    smMatches_nil_left]
  simp

theorem pyRatio_nil_right {a : List Char} (h : a.length ≠ 0) :
    pyRatio a [] = 0 := by
  unfold pyRatio
  rw [if_neg (by simp only [List.length_nil, Nat.add_zero]; exact h),
    smMatches_nil_right]
  simp

theorem pyLower_data_length_ne {b : String} (h : b ≠ "") :
    (pyLower b).data.length ≠ 0 := by
  have hd : b.data ≠ [] := fun hc => h (String.ext (show b.data = "".data from hc))
  show (b.data.map Char.toLower).length ≠ 0
  rw [List.length_map]
  intro hc
  exact hd (List.eq_nil_of_length_eq_zero hc)

theorem similar_empty_left {b : String} (h : b ≠ "") : similar "" b = 0 := by
  have ha : (pyLower "").data = ([] : List Char) := rfl
  have h1 : pyRatio (pyLower "").data (pyLower b).data = 0 := by
    rw [ha]
    exact pyRatio_nil_left (pyLower_data_length_ne h)
  unfold similar
  rw [h1]
  unfold pyRound2
  rw [show ((0:ℚ) * 100 * 100) = (((0 : ℤ)) : ℚ) by norm_num,
    roundHalfEven_intCast]
  norm_num

theorem similar_empty_right {b : String} (h : b ≠ "") : similar b "" = 0 := by
  have ha : (pyLower "").data = ([] : List Char) := rfl
  have h1 : pyRatio (pyLower b).data (pyLower "").data = 0 := by
    rw [ha]
    exact pyRatio_nil_right (pyLower_data_length_ne h)
  unfold similar
  rw [h1]
  unfold pyRound2
  rw [show ((0:ℚ) * 100 * 100) = (((0 : ℤ)) : ℚ) by norm_num,
    roundHalfEven_intCast]
  norm_num

/-- C7: for every pair of strings `similar` returns a score in `[0, 100]`
that is an integer number of hundredths (two-decimal rounding), and for
every non-empty string `a` and every string `b` equal to `a` up to letter
case, `similar a b` is exactly `100`. -/
theorem C7_similarity_bounds_equal (a b : String) :
    (0 ≤ similar a b ∧ similar a b ≤ 100
      ∧ ∃ z : ℤ, similar a b = (z : ℚ) / 100)
    ∧ (a ≠ "" → pyLower a = pyLower b → similar a b = 100) := by
  constructor
  · have hr0 := pyRatio_nonneg (pyLower a).data (pyLower b).data
    have hr1 := pyRatio_le_one (pyLower a).data (pyLower b).data
    have h0 : 0 ≤ pyRatio (pyLower a).data (pyLower b).data * 100 * 100 := by
      nlinarith
    have h1 : pyRatio (pyLower a).data (pyLower b).data * 100 * 100
        ≤ ((10000 : ℤ) : ℚ) := by
      push_cast
      nlinarith
    obtain ⟨hb0, hb1⟩ := roundHalfEven_bounds h0 h1
    have hsim : similar a b
        = ((roundHalfEven
            (pyRatio (pyLower a).data (pyLower b).data * 100 * 100) : ℤ) : ℚ)
          / 100 := rfl
    refine ⟨?_, ?_, ?_⟩
    · rw [hsim]
      apply div_nonneg _ (by norm_num)
      exact_mod_cast hb0
    · rw [hsim]
      rw [div_le_iff (by norm_num : (0:ℚ) < 100)]
      have : ((roundHalfEven
          (pyRatio (pyLower a).data (pyLower b).data * 100 * 100) : ℤ) : ℚ)
          ≤ ((10000 : ℤ) : ℚ) := by exact_mod_cast hb1
      push_cast at this ⊢
      linarith
    · exact ⟨_, hsim⟩
  · intro _ heq
    have h1 : similar a b
        = pyRound2 (pyRatio (pyLower b).data (pyLower b).data * 100) := by
      unfold similar
      rw [heq]
    rw [h1, pyRatio_self]
    unfold pyRound2
    rw [show ((1:ℚ) * 100 * 100) = (((10000 : ℤ)) : ℚ) by norm_num,
      roundHalfEven_intCast]
    norm_num

theorem C7_witness :
    "File.PY" ≠ "" ∧ pyLower "File.PY" = pyLower "file.py"
      ∧ similar "File.PY" "file.py" = 100 :=
  ⟨by decide, by decide,
    (C7_similarity_bounds_equal "File.PY" "file.py").2 (by decide) (by decide)⟩

/-- C8 counterexample: on two empty strings the scorer returns the maximal
score `100`, not a low/zero score — `SequenceMatcher.ratio()` is defined as
`1.0` when both sequences are empty. -/
theorem C8_counterexample : similar "" "" = 100 :=
  similar_empty_empty

/-- C8 (amended): the scorer accepts empty strings without error and returns
a defined score, but the empty/empty score is the maximal `100`; an empty
string against any non-empty string scores `0`, on either side. -/
theorem C8_empty_scores :
    similar "" "" = 100
    ∧ ∀ b : String, b ≠ "" → similar "" b = 0 ∧ similar b "" = 0 :=
  ⟨similar_empty_empty,
   fun _ hb => ⟨similar_empty_left hb, similar_empty_right hb⟩⟩

theorem C8_witness :
    ("x" : String) ≠ "" ∧ similar "" "x" = 0 ∧ similar "x" "" = 0 :=
  ⟨by decide, (C8_empty_scores.2 "x" (by decide)).1,
    (C8_empty_scores.2 "x" (by decide)).2⟩

end Code
